import Mathlib

/-!
# Verification of the source-wrench model-compiler core

A shallow embedding of the processing pipeline of the `source-wrench`
Source-engine model compiler, together with theorems settling the frozen
claims about it.  Floating-point (`f64`) values are modelled as exact
rationals; machine integers are modelled as `Nat`/`Int` with explicit
wrapping or saturation where the Rust code relies on it.  Third-party
mathematical primitives (`glam` vector length, quaternion/Euler
conversion) are abstracted as parameters where only their results flow
through the code under verification.
-/

namespace SourceWrench

/-- Double precision 3-component vector (`glam::DVec3`), components exact. -/
structure Vec3 where
  x : ℚ
  y : ℚ
  z : ℚ
deriving DecidableEq, Repr

instance : Inhabited Vec3 := ⟨⟨0, 0, 0⟩⟩

def Vec3.zero : Vec3 := ⟨0, 0, 0⟩

/-- Double precision 2-component vector (`glam::DVec2`). -/
structure Vec2 where
  x : ℚ
  y : ℚ
deriving DecidableEq, Repr

instance : Inhabited Vec2 := ⟨⟨0, 0⟩⟩

/-!
## `utilities/mathematics.rs`: `BoundingBox`

`BoundingBox` with `minimum`/`maximum` corners, `Default` giving the
all-zero box, `is_valid` and `add_point` exactly as in the source.
-/

structure BoundingBox where
  minimum : Vec3
  maximum : Vec3
deriving DecidableEq, Repr

namespace BoundingBox

/-- `#[derive(Default)]`: both corners are the zero vector. -/
def default : BoundingBox := ⟨Vec3.zero, Vec3.zero⟩

/-- `BoundingBox::is_valid`. -/
def is_valid (b : BoundingBox) : Bool :=
  b.minimum.x ≤ b.maximum.x && b.minimum.y ≤ b.maximum.y && b.minimum.z ≤ b.maximum.z

/-- `BoundingBox::add_point`. -/
def add_point (b : BoundingBox) (point : Vec3) : BoundingBox :=
  if !b.is_valid then
    ⟨point, point⟩
  else
    ⟨⟨min b.minimum.x point.x, min b.minimum.y point.y, min b.minimum.z point.z⟩,
     ⟨max b.maximum.x point.x, max b.maximum.y point.y, max b.maximum.z point.z⟩⟩

/-- The box contains the coordinate origin. -/
def contains_origin (b : BoundingBox) : Prop :=
  b.minimum.x ≤ 0 ∧ b.minimum.y ≤ 0 ∧ b.minimum.z ≤ 0 ∧
  0 ≤ b.maximum.x ∧ 0 ≤ b.maximum.y ∧ 0 ≤ b.maximum.z

instance (b : BoundingBox) : Decidable b.contains_origin := by
  unfold contains_origin; infer_instance

end BoundingBox

/-!
## `process/mesh.rs`: `update_bounding_boxes`

The model bounding box grows by every vertex location; the per-bone
hitboxes grow by the vertex location mapped into the bone's local frame
and scaled by the link weight.  The bone-local mapping
`(bone.world_transform.inverse() * Matrix4::from_translation(v)).translation`
is a `glam` affine computation; it is abstracted as the parameter
`boneLocal` below, which does not affect which boxes the points enter.
-/

/-- A vertex as far as bounding-box growth is concerned: its location and
its `(bone, weight)` links. -/
structure BBVertex where
  location : Vec3
  links : List (ℕ × ℚ)

/-- Scalar multiplication of a `Vec3` (`local_location * link.weight`). -/
def Vec3.smul (v : Vec3) (q : ℚ) : Vec3 := ⟨v.x * q, v.y * q, v.z * q⟩

/-- Association-list update mirroring
`hitboxes.entry(bone).or_default().add_point(p)` on the `IndexMap`. -/
def hitboxAdd (boxes : List (ℕ × BoundingBox)) (bone : ℕ) (p : Vec3) :
    List (ℕ × BoundingBox) :=
  match boxes with
  | [] => [(bone, BoundingBox.default.add_point p)]
  | (b, box) :: rest =>
      if b = bone then (b, box.add_point p) :: rest
      else (b, box) :: hitboxAdd rest bone p

/-- `update_bounding_boxes`: fold over the triangle list's vertices,
growing the model box and the per-bone hitboxes. -/
def update_bounding_boxes (boneLocal : ℕ → Vec3 → Vec3)
    (vertices : List BBVertex) (model_box : BoundingBox)
    (hitboxes : List (ℕ × BoundingBox)) :
    BoundingBox × List (ℕ × BoundingBox) :=
  vertices.foldl
    (fun acc vertex =>
      let model_box := acc.1.add_point vertex.location
      let hitboxes := vertex.links.foldl
        (fun hb link =>
          hitboxAdd hb link.1 ((boneLocal link.1 vertex.location).smul link.2))
        acc.2
      (model_box, hitboxes))
    (model_box, hitboxes)

namespace BoundingBox

theorem add_point_of_valid (b : BoundingBox) (p : Vec3) (h : b.is_valid = true) :
    b.add_point p =
      ⟨⟨min b.minimum.x p.x, min b.minimum.y p.y, min b.minimum.z p.z⟩,
       ⟨max b.maximum.x p.x, max b.maximum.y p.y, max b.maximum.z p.z⟩⟩ := by
  unfold add_point
  simp [h]

theorem contains_origin_add_point (b : BoundingBox) (p : Vec3)
    (h : b.contains_origin) : (b.add_point p).contains_origin := by
  have hv : b.is_valid = true := by
    obtain ⟨h1, h2, h3, h4, h5, h6⟩ := h
    unfold is_valid
    simp only [Bool.and_eq_true, decide_eq_true_eq]
    exact ⟨⟨le_trans h1 h4, le_trans h2 h5⟩, le_trans h3 h6⟩
  rw [add_point_of_valid _ _ hv]
  obtain ⟨h1, h2, h3, h4, h5, h6⟩ := h
  exact ⟨le_trans (min_le_left _ _) h1, le_trans (min_le_left _ _) h2,
         le_trans (min_le_left _ _) h3, le_trans h4 (le_max_left _ _),
         le_trans h5 (le_max_left _ _), le_trans h6 (le_max_left _ _)⟩

theorem default_contains_origin : default.contains_origin := by
  unfold default contains_origin Vec3.zero
  norm_num

theorem contains_origin_foldl (points : List Vec3) (b : BoundingBox)
    (h : b.contains_origin) :
    (points.foldl add_point b).contains_origin := by
  induction points generalizing b with
  | nil => exact h
  | cons p rest ih => exact ih _ (contains_origin_add_point _ _ h)

end BoundingBox

theorem hitboxAdd_contains_origin (boxes : List (ℕ × BoundingBox)) (bone : ℕ)
    (p : Vec3) (h : ∀ e ∈ boxes, (e.2).contains_origin) :
    ∀ e ∈ hitboxAdd boxes bone p, (e.2).contains_origin := by
  induction boxes with
  | nil =>
      intro e he
      simp only [hitboxAdd, List.mem_singleton] at he
      subst he
      exact BoundingBox.contains_origin_add_point _ _
        BoundingBox.default_contains_origin
  | cons hd tl ih =>
      intro e he
      unfold hitboxAdd at he
      by_cases hb : hd.1 = bone
      · simp only [hb, if_pos rfl] at he
        rcases List.mem_cons.mp he with h1 | h2
        · subst h1
          exact BoundingBox.contains_origin_add_point _ _ (h hd (List.mem_cons_self _ _))
        · exact h _ (List.mem_cons_of_mem _ h2)
      · simp only [if_neg hb] at he
        rcases List.mem_cons.mp he with h1 | h2
        · subst h1; exact h hd (List.mem_cons_self _ _)
        · exact ih (fun e he => h e (List.mem_cons_of_mem _ he)) _ h2

theorem update_bounding_boxes_origin (boneLocal : ℕ → Vec3 → Vec3)
    (vertices : List BBVertex) (model_box : BoundingBox)
    (hitboxes : List (ℕ × BoundingBox))
    (hm : model_box.contains_origin)
    (hh : ∀ e ∈ hitboxes, (e.2).contains_origin) :
    (update_bounding_boxes boneLocal vertices model_box hitboxes).1.contains_origin ∧
    ∀ e ∈ (update_bounding_boxes boneLocal vertices model_box hitboxes).2,
      (e.2).contains_origin := by
  induction vertices generalizing model_box hitboxes with
  | nil => exact ⟨hm, hh⟩
  | cons v rest ih =>
      apply ih
      · exact BoundingBox.contains_origin_add_point _ _ hm
      · have : ∀ (links : List (ℕ × ℚ)) (hb : List (ℕ × BoundingBox)),
            (∀ e ∈ hb, (e.2).contains_origin) →
            ∀ e ∈ links.foldl
              (fun hb link => hitboxAdd hb link.1
                ((boneLocal link.1 v.location).smul link.2)) hb,
              (e.2).contains_origin := by
          intro links
          induction links with
          | nil => intro hb h e he; exact h e he
          | cons l ls ihl =>
              intro hb h e he
              exact ihl _ (hitboxAdd_contains_origin _ _ _ h) e he
        exact this v.links hitboxes hh

/-- C10: `BoundingBox::default()` (minimum = maximum = origin) already
satisfies `is_valid`, so `add_point` on a fresh box expands it from the
origin (taking componentwise min/max with the given point) instead of
re-initializing it; consequently the model bounding box and every
per-bone hitbox grown by `update_bounding_boxes` from default boxes
contain the origin, regardless of where the contributing points lie. -/
theorem C10_default_box_traps_origin :
    BoundingBox.default.is_valid = true ∧
    (∀ p : Vec3, BoundingBox.default.add_point p =
      ⟨⟨min 0 p.x, min 0 p.y, min 0 p.z⟩, ⟨max 0 p.x, max 0 p.y, max 0 p.z⟩⟩) ∧
    (∀ (boneLocal : ℕ → Vec3 → Vec3) (vertices : List BBVertex),
      (update_bounding_boxes boneLocal vertices BoundingBox.default []).1.contains_origin ∧
      ∀ e ∈ (update_bounding_boxes boneLocal vertices BoundingBox.default []).2,
        (e.2).contains_origin) := by
  refine ⟨by decide, ?_, ?_⟩
  · intro p
    rw [BoundingBox.add_point_of_valid _ _ (by decide)]
    rfl
  · intro boneLocal vertices
    exact update_bounding_boxes_origin boneLocal vertices _ _
      BoundingBox.default_contains_origin (by intro e he; cases he)

/-!
## `import/dmx.rs`: animation clip frame count (`load_dmx`, lines 385-402)

`start`/`duration` are decoded per the format-version rule, then
`start_frame = (start * frame_rate).ceil() as usize`,
`end_frame = ((start + duration) * frame_rate).ceil() as usize`,
`frame_count = end_frame - start_frame + 1` in `usize` arithmetic, and
the stored count is `NonZeroUsize::new(frame_count).unwrap_or(MIN)`.
The Rust `as usize` cast of an `f64` saturates: negative values clamp to
0 and values above `usize::MAX` clamp to `usize::MAX`; the `usize`
subtraction wraps modulo `2^64` (release semantics).
-/

def USIZE_MAX : ℕ := 2 ^ 64 - 1

/-- The version rule for time attributes: format version < 2 stores
integer ten-thousandths of a second, version ≥ 2 a signed duration read
as seconds. -/
def decode_time (format_version : ℤ) (integer_time : ℤ) (seconds : ℚ) : ℚ :=
  if format_version < 2 then (integer_time : ℚ) / 10000 else seconds

/-- `q.ceil() as usize`: the saturating `f64` → `usize` cast of a ceiling. -/
def ceil_as_usize (q : ℚ) : ℕ := min (Int.toNat ⌈q⌉) USIZE_MAX

/-- The clip frame count stored by `load_dmx` for decoded `start`,
`duration` and integer `frame_rate`. -/
def dmx_frame_count (start duration : ℚ) (frame_rate : ℤ) : ℕ :=
  let start_frame := ceil_as_usize (start * frame_rate)
  let end_frame := ceil_as_usize ((start + duration) * frame_rate)
  let frame_count := ((2 ^ 64 + end_frame - start_frame) % 2 ^ 64 + 1) % 2 ^ 64
  if frame_count = 0 then 1 else frame_count

/-- C3 counterexample: a version-18 clip with `frameRate = 10`,
`start = -1 s`, `duration = 2 s`.  The claimed formula gives
`⌈10⌉ - ⌈-10⌉ + 1 = 21`, but the `f64 → usize` cast clamps the negative
`start_frame` ceiling to 0, so the code stores 11. -/
theorem C3_counterexample :
    dmx_frame_count (decode_time 18 0 (-1)) (decode_time 18 0 2) 10 = 11 ∧
    (⌈(decode_time 18 0 (-1) + decode_time 18 0 2) * ((10 : ℤ) : ℚ)⌉ -
      ⌈decode_time 18 0 (-1) * ((10 : ℤ) : ℚ)⌉ + 1 : ℤ) = 21 ∧
    (11 : ℤ) ≠ 21 := by
  have hd1 : decode_time 18 0 (-1) = -1 := rfl
  have hd2 : decode_time 18 0 2 = 2 := rfl
  have hc1 : ⌈((-1 : ℚ)) * ((10 : ℤ) : ℚ)⌉ = -10 := by
    rw [Int.ceil_eq_iff]
    norm_num
  have hc2 : ⌈((-1 : ℚ) + 2) * ((10 : ℤ) : ℚ)⌉ = 10 := by
    rw [Int.ceil_eq_iff]
    norm_num
  refine ⟨?_, ?_, by decide⟩
  · unfold dmx_frame_count ceil_as_usize
    rw [hd1, hd2, hc1, hc2]
    decide
  · rw [hd1, hd2, hc1, hc2]
    decide

/-- C3 (amended): with `start_frame` and `end_frame` the *saturating*
`usize` casts of the two ceilings (negative ceilings clamp to 0), the
stored frame count equals `end_frame - start_frame + 1` and is at least
1 whenever `start_frame ≤ end_frame` and `end_frame < usize::MAX`; the
fallback of `NonZeroUsize::new(..).unwrap_or(MIN)` to 1 fires only when
the wrapped `usize` computation yields exactly 0. -/
theorem C3_frame_count (start duration : ℚ) (frame_rate : ℤ)
    (hle : ceil_as_usize (start * frame_rate) ≤
      ceil_as_usize ((start + duration) * frame_rate))
    (hlt : ceil_as_usize ((start + duration) * frame_rate) < USIZE_MAX) :
    dmx_frame_count start duration frame_rate =
      ceil_as_usize ((start + duration) * frame_rate) -
        ceil_as_usize (start * frame_rate) + 1 ∧
    1 ≤ dmx_frame_count start duration frame_rate := by
  unfold dmx_frame_count
  dsimp only
  unfold USIZE_MAX at hlt
  set s := ceil_as_usize (start * frame_rate) with hs
  set e := ceil_as_usize ((start + duration) * frame_rate) with he
  have h1 : (2 ^ 64 + e - s) % 2 ^ 64 = e - s := by omega
  rw [h1]
  have h2 : (e - s + 1) % 2 ^ 64 = e - s + 1 := by omega
  rw [h2]
  have h3 : ¬ (e - s + 1 = 0) := by omega
  rw [if_neg h3]
  omega

theorem ceil_as_usize_E3_start : ceil_as_usize ((0 : ℚ) * ((30 : ℤ) : ℚ)) = 0 := by
  have h : ⌈((0 : ℚ)) * ((30 : ℤ) : ℚ)⌉ = 0 := by
    rw [Int.ceil_eq_iff]
    norm_num
  unfold ceil_as_usize
  rw [h]
  decide

theorem ceil_as_usize_E3_end :
    ceil_as_usize (((0 : ℚ) + 2) * ((30 : ℤ) : ℚ)) = 60 := by
  have h : ⌈((0 : ℚ) + 2) * ((30 : ℤ) : ℚ)⌉ = 60 := by
    rw [Int.ceil_eq_iff]
    norm_num
  unfold ceil_as_usize
  rw [h]
  decide

/-- C3 witness: the spec's E3 clip (`frameRate = 30`, `start = 0`,
`duration = 2`) satisfies both hypotheses and stores 61 frames. -/
theorem C3_frame_count_witness :
    dmx_frame_count 0 2 30 = 61 ∧ 1 ≤ dmx_frame_count 0 2 30 := by
  have h := C3_frame_count 0 2 30
    (by rw [ceil_as_usize_E3_start, ceil_as_usize_E3_end]; decide)
    (by rw [ceil_as_usize_E3_end]; decide)
  refine ⟨?_, h.2⟩
  rw [h.1, ceil_as_usize_E3_start, ceil_as_usize_E3_end]

/-!
## `process/sequences.rs`: `process_sequences`

The output grid is allocated as
`vec![vec![0; input_sequence.animations[0].len()]; input_sequence.animations.len()]`
and then filled cell by cell with
`*remapped_animations.get(column_value).unwrap() as i16`.  A `None`
lookup `unwrap`s (a panic, not a typed error), `animations[0]` on an
empty grid panics, and a row longer than row 0 indexes out of bounds.
Panics are modelled as `none`; the indexed writes
`animations[row_index][column_index] = v` walk the freshly allocated
rows in lockstep with the input rows, which is how they are modelled
here.
-/

inductive ProcessingSequenceError where
  | TooManySequences
deriving DecidableEq, Repr

structure InputSequence where
  name : String
  animations : List (List ℕ)

/-- `IndexMap::get` on the `usize → usize` animation remap. -/
def lookupRemap (remap : List (ℕ × ℕ)) (key : ℕ) : Option ℕ :=
  (remap.find? (fun e => e.1 = key)).map (·.2)

/-- The wrapping `usize as i16` cast. -/
def usize_as_i16 (n : ℕ) : ℤ := (((n + 2 ^ 15) % 2 ^ 16 : ℕ) : ℤ) - 2 ^ 15

/-- Fill one output row (already allocated, walked in lockstep with the
input row): each cell becomes the remapped identifier cast to `i16`; a
missing identifier is an `unwrap` panic (`none`), exhausting the
allocated row first is an out-of-bounds panic (`none`). -/
def fillRow (remap : List (ℕ × ℕ)) : List ℕ → List ℤ → Option (List ℤ)
  | [], out_row => some out_row
  | _ :: _, [] => none
  | key :: rest, _ :: out_rest =>
      match lookupRemap remap key with
      | none => none
      | some m => (fillRow remap rest out_rest).map (usize_as_i16 m :: ·)

/-- Fill every output row. -/
def fillRows (remap : List (ℕ × ℕ)) : List (List ℕ) → List (List ℤ) →
    Option (List (List ℤ))
  | [], out_rows => some out_rows
  | _ :: _, [] => none
  | row :: rest, out_row :: out_rest =>
      match fillRow remap row out_row with
      | none => none
      | some filled => (fillRows remap rest out_rest).map (filled :: ·)

/-- The per-sequence body of `process_sequences`. -/
def processOneSequence (remap : List (ℕ × ℕ)) (s : InputSequence) :
    Option (String × List (List ℤ)) :=
  match s.animations with
  | [] => none
  | first :: _ =>
      (fillRows remap s.animations
        (s.animations.map (fun _ => List.replicate first.length (0 : ℤ)))).map
        (fun grid => (s.name, grid))

def processAllSequences (remap : List (ℕ × ℕ)) :
    List InputSequence → Option (List (String × List (List ℤ)))
  | [] => some []
  | s :: rest =>
      match processOneSequence remap s with
      | none => none
      | some entry => (processAllSequences remap rest).map (entry :: ·)

/-- `process_sequences`: loop over the input sequences, then apply the
`TooManySequences` bound (`i32::MAX as usize + 1`). -/
def process_sequences (input_sequences : List InputSequence)
    (remapped_animations : List (ℕ × ℕ)) :
    Option (Except ProcessingSequenceError (List (String × List (List ℤ)))) :=
  (processAllSequences remapped_animations input_sequences).map
    (fun out =>
      if out.length > 2 ^ 31 then Except.error ProcessingSequenceError.TooManySequences
      else Except.ok out)

/-- C7 counterexample: a single sequence whose one cell holds identifier
5, with an empty remap.  `remapped_animations.get(&5).unwrap()` panics:
the model yields `none`, not a typed `ProcessingSequenceError`. -/
theorem C7_counterexample :
    process_sequences [⟨"s", [[5]]⟩] [] = none := by
  rfl

theorem fillRow_maps (remap : List (ℕ × ℕ)) (row : List ℕ) (out_row : List ℤ)
    (hlen : row.length ≤ out_row.length)
    (hmem : ∀ key ∈ row, (lookupRemap remap key).isSome) :
    fillRow remap row out_row =
      some (row.map (fun key => usize_as_i16 ((lookupRemap remap key).getD 0)) ++
        out_row.drop row.length) := by
  induction row generalizing out_row with
  | nil => simp [fillRow]
  | cons key rest ih =>
      cases out_row with
      | nil => simp at hlen
      | cons a arest =>
          have hk : (lookupRemap remap key).isSome :=
            hmem key (List.mem_cons_self _ _)
          obtain ⟨m, hm⟩ := Option.isSome_iff_exists.mp hk
          have ihr := ih arest (by simpa using hlen)
            (fun k hkm => hmem k (List.mem_cons_of_mem _ hkm))
          simp [fillRow, hm, ihr]

theorem fillRows_maps (remap : List (ℕ × ℕ)) (rows : List (List ℕ)) (L : ℕ)
    (hlen : ∀ row ∈ rows, row.length = L)
    (hmem : ∀ row ∈ rows, ∀ key ∈ row, (lookupRemap remap key).isSome) :
    fillRows remap rows (rows.map (fun _ => List.replicate L (0 : ℤ))) =
      some (rows.map (fun row =>
        row.map (fun key => usize_as_i16 ((lookupRemap remap key).getD 0)))) := by
  induction rows with
  | nil => simp [fillRows]
  | cons row rest ih =>
      have h1 : row.length = L := hlen row (List.mem_cons_self _ _)
      have hr := fillRow_maps remap row (List.replicate L (0 : ℤ))
        (by simp [h1]) (hmem row (List.mem_cons_self _ _))
      have hdrop : (List.replicate L (0 : ℤ)).drop row.length = [] := by
        simp [h1]
      rw [hdrop, List.append_nil] at hr
      have ihr := ih (fun r hrm => hlen r (List.mem_cons_of_mem _ hrm))
        (fun r hrm => hmem r (List.mem_cons_of_mem _ hrm))
      rw [List.map_cons]
      unfold fillRows
      rw [hr, ihr]
      rfl

/-- C7 (amended): for inputs on which no write panics — every sequence
grid nonempty and rectangular, every identifier present in the remap —
and at most `2^31` sequences, `process_sequences` returns the grids of
the same shape with every cell the remapped index cast to `i16`.  When
an identifier is absent from the remap the cell lookup `unwrap`s: the
code panics (`none`) instead of returning a typed error, and no partial
output is produced. -/
theorem C7_sequences (input_sequences : List InputSequence)
    (remap : List (ℕ × ℕ))
    (hne : ∀ s ∈ input_sequences, s.animations ≠ [])
    (hrect : ∀ s ∈ input_sequences, ∀ row ∈ s.animations,
      row.length = (s.animations.headI).length)
    (hmem : ∀ s ∈ input_sequences, ∀ row ∈ s.animations, ∀ key ∈ row,
      (lookupRemap remap key).isSome)
    (hcount : input_sequences.length ≤ 2 ^ 31) :
    process_sequences input_sequences remap =
      some (Except.ok (input_sequences.map (fun s =>
        (s.name, s.animations.map (fun row =>
          row.map (fun key => usize_as_i16 ((lookupRemap remap key).getD 0))))))) := by
  have hall : processAllSequences remap input_sequences =
      some (input_sequences.map (fun s =>
        (s.name, s.animations.map (fun row =>
          row.map (fun key => usize_as_i16 ((lookupRemap remap key).getD 0)))))) := by
    induction input_sequences with
    | nil => rfl
    | cons s rest ih =>
        have hone : processOneSequence remap s =
            some (s.name, s.animations.map (fun row =>
              row.map (fun key => usize_as_i16 ((lookupRemap remap key).getD 0)))) := by
          have hs : s.animations ≠ [] := hne s (List.mem_cons_self _ _)
          cases hanim : s.animations with
          | nil => exact absurd hanim hs
          | cons first others =>
              have hL : ∀ row ∈ s.animations, row.length = first.length := by
                intro row hrow
                have := hrect s (List.mem_cons_self _ _) row hrow
                rwa [hanim, List.headI_cons] at this
              have hfill := fillRows_maps remap s.animations first.length hL
                (hmem s (List.mem_cons_self _ _))
              rw [hanim] at hfill
              unfold processOneSequence
              rw [hanim]
              show (fillRows remap (first :: others)
                ((first :: others).map (fun _ => List.replicate first.length (0 : ℤ)))).map
                  (fun grid => (s.name, grid)) = _
              rw [hfill]
              rfl
        have ihr := ih (fun t ht => hne t (List.mem_cons_of_mem _ ht))
          (fun t ht => hrect t (List.mem_cons_of_mem _ ht))
          (fun t ht => hmem t (List.mem_cons_of_mem _ ht))
          (le_trans (by simp) hcount)
        unfold processAllSequences
        rw [hone, ihr]
        rfl
  unfold process_sequences
  rw [hall]
  have hlen : (input_sequences.map (fun s =>
      (s.name, s.animations.map (fun row =>
        row.map (fun key => usize_as_i16 ((lookupRemap remap key).getD 0)))))).length =
      input_sequences.length := List.length_map _ _
  rw [Option.map_some', if_neg (by rw [hlen]; omega)]

/-- C7 witness: one sequence with a 2×1 grid and a two-entry remap. -/
theorem C7_sequences_witness :
    process_sequences [⟨"s", [[7], [8]]⟩] [(7, 3), (8, 5)] =
      some (Except.ok [("s", [[usize_as_i16 ((lookupRemap [(7, 3), (8, 5)] 7).getD 0)],
        [usize_as_i16 ((lookupRemap [(7, 3), (8, 5)] 8).getD 0)]])]) := by
  exact C7_sequences [⟨"s", [[7], [8]]⟩] [(7, 3), (8, 5)]
    (by decide) (by decide) (by decide) (by decide)

/-!
## `import.rs`: the file-manager registry

`loaded_files : IndexMap<PathBuf, (usize, FileStatus)>` behind one
readers-writer lock.  All mutations take the write lock, so the behaviour
on one path is a sequence of serialized registry events: `load_file`,
the tail of the `load_file_data` loader thread (which publishes its
result), and `unload_file`.  Paths are modelled as naturals and the
loaded `Arc<FileData>` payload as an abstract type `D`.
-/

inductive FileStatus (D : Type) where
  | Loading
  | Loaded (data : D)
  | Failed
deriving DecidableEq, Repr

/-- The registry map, in `IndexMap` insertion order. -/
abbrev Registry (D : Type) := List (ℕ × ℕ × FileStatus D)

/-- A serialized registry mutation for the claim's interleaving:
`load p` (`load_file`), `complete p outcome` (the tail of the
`load_file_data` thread, `outcome = some data` on success and `none` on
a load error), `unload p` (`unload_file`). -/
inductive FMEvent (D : Type) where
  | load (p : ℕ)
  | complete (p : ℕ) (outcome : Option D)
  | unload (p : ℕ)

/-- `loaded_files.get(&path)`. -/
def Registry.lookup {D : Type} (reg : Registry D) (p : ℕ) :
    Option (ℕ × FileStatus D) :=
  (List.find? (fun e => e.1 = p) reg).map (·.2)

/-- Update the status of an existing entry in place
(`if let Some((_, status)) = loaded_files.get_mut(&path) { *status = .. }`);
a missing entry is left untouched. -/
def Registry.setStatus {D : Type} (reg : Registry D) (p : ℕ)
    (st : FileStatus D) : Registry D :=
  reg.map (fun e => if e.1 = p then (e.1, e.2.1, st) else e)

/-- One registry mutation, following `load_file`, the completion in
`load_file_data`, and `unload_file`. -/
def fm_step {D : Type} (reg : Registry D) : FMEvent D → Registry D
  | FMEvent.load p =>
      match reg.lookup p with
      | some _ => reg.map (fun e => if e.1 = p then (e.1, e.2.1 + 1, e.2.2) else e)
      | none => reg ++ [(p, 1, FileStatus.Loading)]
  | FMEvent.complete p outcome =>
      match outcome with
      | some data => reg.setStatus p (FileStatus.Loaded data)
      | none => reg.setStatus p FileStatus.Failed
  | FMEvent.unload p =>
      match reg.lookup p with
      | some (count, _) =>
          if count - 1 = 0 then reg.filter (fun e => ¬ e.1 = p)
          else reg.map (fun e => if e.1 = p then (e.1, count - 1, e.2.2) else e)
      | none => reg

def fm_run {D : Type} (reg : Registry D) (events : List (FMEvent D)) :
    Registry D :=
  events.foldl fm_step reg

/-- C5 counterexample: load path 0, unload it to zero (removing the
entry) while the load is in flight, then let the load complete with
data 42.  The completion's `get_mut` finds no entry and writes nothing:
the registry holds no status at all for the path, not `Loaded`/`Failed`. -/
theorem C5_counterexample :
    (fm_run ([] : Registry ℕ)
      [FMEvent.load 0, FMEvent.unload 0, FMEvent.complete 0 (some 42)]).lookup 0 =
      none := by
  rfl

theorem lookup_setStatus_found {D : Type} (reg : Registry D) (p : ℕ)
    (st' : FileStatus D) (count : ℕ) (st : FileStatus D)
    (hfound : reg.lookup p = some (count, st)) :
    (reg.setStatus p st').lookup p = some (count, st') := by
  induction reg with
  | nil => simp [Registry.lookup] at hfound
  | cons hd tl ih =>
      by_cases hp : hd.1 = p
      · have hfound' : hd.2 = (count, st) := by
          rw [Registry.lookup, List.find?_cons_of_pos _ (by simp [hp]),
            Option.map_some'] at hfound
          exact Option.some.inj hfound
        rw [Registry.setStatus, List.map_cons, if_pos hp, Registry.lookup,
          List.find?_cons_of_pos _ (by simp [hp]), Option.map_some']
        rw [show hd.2.1 = count from by rw [hfound']]
      · rw [Registry.lookup, List.find?_cons_of_neg _ (by simp [hp])] at hfound
        rw [Registry.setStatus, List.map_cons, if_neg hp, Registry.lookup,
          List.find?_cons_of_neg _ (by simp [hp])]
        exact ih hfound

theorem setStatus_not_found {D : Type} (reg : Registry D) (p : ℕ)
    (st' : FileStatus D) (hmiss : reg.lookup p = none) :
    reg.setStatus p st' = reg := by
  induction reg with
  | nil => rfl
  | cons hd tl ih =>
      by_cases hp : hd.1 = p
      · rw [Registry.lookup, List.find?_cons_of_pos _ (by simp [hp])] at hmiss
        simp at hmiss
      · rw [Registry.lookup, List.find?_cons_of_neg _ (by simp [hp])] at hmiss
        rw [Registry.setStatus, List.map_cons, if_neg hp]
        rw [show (tl.map (fun e => if e.1 = p then (e.1, e.2.1, st') else e)) =
          Registry.setStatus tl p st' from rfl]
        rw [ih hmiss]

/-- C5 (amended): the completion of an in-flight load writes its result
only if the path still has a registry entry.  If `unload_file` has
already removed the entry, the completion is a no-op — the registry
holds *no* status for the path (not `Loaded`/`Failed`).  If the entry
is still present, the completion sets its status to `Loaded data` or
`Failed` keeping the reference count, and a later completion overwrites
that status. -/
theorem C5_unloaded_inflight_load {D : Type} (reg : Registry D) (p : ℕ)
    (outcome : Option D) :
    (reg.lookup p = none →
      fm_step reg (FMEvent.complete p outcome) = reg) ∧
    (∀ count st, reg.lookup p = some (count, st) →
      (fm_step reg (FMEvent.complete p outcome)).lookup p =
        some (count, match outcome with
          | some data => FileStatus.Loaded data
          | none => FileStatus.Failed)) ∧
    (∀ outcome2, ∀ count st, reg.lookup p = some (count, st) →
      (fm_step (fm_step reg (FMEvent.complete p outcome))
        (FMEvent.complete p outcome2)).lookup p =
        some (count, match outcome2 with
          | some data => FileStatus.Loaded data
          | none => FileStatus.Failed)) := by
  refine ⟨?_, ?_, ?_⟩
  · intro hmiss
    cases outcome with
    | none => exact setStatus_not_found reg p _ hmiss
    | some data => exact setStatus_not_found reg p _ hmiss
  · intro count st hfound
    cases outcome with
    | none => exact lookup_setStatus_found reg p _ _ _ hfound
    | some data => exact lookup_setStatus_found reg p _ _ _ hfound
  · intro outcome2 count st hfound
    cases outcome with
    | none =>
        cases outcome2 with
        | none =>
            exact lookup_setStatus_found _ p _ _ _
              (lookup_setStatus_found reg p _ _ _ hfound)
        | some d2 =>
            exact lookup_setStatus_found _ p _ _ _
              (lookup_setStatus_found reg p _ _ _ hfound)
    | some data =>
        cases outcome2 with
        | none =>
            exact lookup_setStatus_found _ p _ _ _
              (lookup_setStatus_found reg p _ _ _ hfound)
        | some d2 =>
            exact lookup_setStatus_found _ p _ _ _
              (lookup_setStatus_found reg p _ _ _ hfound)

/-- C5 witness: a single-entry registry still holding path 0 while its
load is in flight; completion with data 7 publishes `Loaded 7`. -/
theorem C5_unloaded_inflight_load_witness :
    ((([(0, 1, FileStatus.Loading)] : Registry ℕ).lookup 0 =
        some (1, FileStatus.Loading)) ∧
      (fm_step ([(0, 1, FileStatus.Loading)] : Registry ℕ)
        (FMEvent.complete 0 (some 7))).lookup 0 =
        some (1, FileStatus.Loaded 7)) := by
  refine ⟨rfl, ?_⟩
  exact (C5_unloaded_inflight_load ([(0, 1, FileStatus.Loading)] : Registry ℕ)
    0 (some 7)).2.1 1 FileStatus.Loading rfl

/-!
## `process/bones.rs`: the collapse step of `process_bones` (lines 162-192)

The loop walks the unified skeleton left to right.  A bone whose flag
set is empty is `shift_remove`d; every later bone whose parent index
equals the removed index is reparented to the removed bone's parent,
and later parent indices above the removed index are decremented.
World transforms were computed before the loop and are not touched by
it, so they are carried as an abstract payload `W`.
-/

/-- A processed bone as the collapse loop sees it: `flags.is_empty()`
is the negation of `flags_used_by_vertex` (the only flag the code can
set is `USED_BY_VERTEX`). -/
structure CBone (W : Type) where
  name : String
  parent : Option ℕ
  flags_used_by_vertex : Bool
  world_transform : W
deriving DecidableEq, Repr

/-- The reparenting pass run after `shift_remove_index(current)`:
indices below `current` are untouched; a parent equal to `current`
becomes the removed bone's parent; a parent above it is decremented. -/
def collapse_reparent {W : Type} (current : ℕ) (current_parent : Option ℕ) :
    ℕ → List (CBone W) → List (CBone W)
  | _, [] => []
  | j, b :: rest =>
      let b' :=
        if j < current then b
        else
          match b.parent with
          | none => b
          | some bp =>
              if bp = current then { b with parent := current_parent }
              else if current ≤ bp then { b with parent := some (bp - 1) }
              else b
      b' :: collapse_reparent current current_parent (j + 1) rest

/-- The length of a list is unchanged by the reparenting pass. -/
theorem collapse_reparent_length {W : Type} (current : ℕ)
    (current_parent : Option ℕ) (j : ℕ) (l : List (CBone W)) :
    (collapse_reparent current current_parent j l).length = l.length := by
  induction l generalizing j with
  | nil => rfl
  | cons hd tl ih => simp [collapse_reparent, ih]

/-- The `while current_bone_index < processed_bones.len()` collapse loop. -/
def collapse_loop {W : Type} (bones : List (CBone W)) (i : ℕ) : List (CBone W) :=
  if h : i < bones.length then
    let b := bones.get ⟨i, h⟩
    if b.flags_used_by_vertex then collapse_loop bones (i + 1)
    else collapse_loop (collapse_reparent i b.parent 0 (bones.eraseIdx i)) i
  else bones
termination_by bones.length - i
decreasing_by
  · omega
  · simp only [collapse_reparent_length, List.length_eraseIdx]
    split
    · omega
    · omega

/-- The collapse step applied to the unified pre-collapse skeleton. -/
def collapse {W : Type} (bones : List (CBone W)) : List (CBone W) :=
  collapse_loop bones 0

/-- Everything the collapse loop preserves per bone: name, vertex-usage
flag and world transform. -/
def cInfo {W : Type} (b : CBone W) : String × Bool × W :=
  (b.name, b.flags_used_by_vertex, b.world_transform)

theorem collapse_reparent_map_cInfo {W : Type} (current : ℕ)
    (current_parent : Option ℕ) (j : ℕ) (l : List (CBone W)) :
    (collapse_reparent current current_parent j l).map cInfo = l.map cInfo := by
  induction l generalizing j with
  | nil => rfl
  | cons hd tl ih =>
      simp only [collapse_reparent, List.map_cons, ih]
      congr 1
      by_cases hj : j < current
      · simp [hj]
      · simp only [if_neg hj]
        cases hp : hd.parent with
        | none => rfl
        | some bp =>
            by_cases h1 : bp = current
            · simp [h1, cInfo]
            · by_cases h2 : current ≤ bp
              · simp [h1, h2, cInfo]
              · simp [h1, h2]

theorem collapse_loop_map_cInfo {W : Type} :
    ∀ (n : ℕ) (bones : List (CBone W)) (i : ℕ), bones.length - i ≤ n →
    (collapse_loop bones i).map cInfo =
      ((bones.take i).map cInfo) ++
        (((bones.drop i).map cInfo).filter (fun t => t.2.1)) := by
  intro n
  induction n with
  | zero =>
      intro bones i hn
      have hge : ¬ i < bones.length := by omega
      rw [collapse_loop, dif_neg hge]
      rw [List.take_of_length_le (by omega), List.drop_eq_nil_of_le (by omega)]
      simp
  | succ n ih =>
      intro bones i hn
      by_cases h : i < bones.length
      · rw [collapse_loop, dif_pos h]
        dsimp only [List.get_eq_getElem]
        have hdrop : bones.drop i = bones[i] :: bones.drop (i + 1) :=
          List.drop_eq_getElem_cons h
        by_cases hflag : bones[i].flags_used_by_vertex = true
        · rw [if_pos hflag, ih bones (i + 1) (by omega)]
          have htake : bones.take (i + 1) = bones.take i ++ [bones[i]] := by
            rw [List.take_succ]
            simp [List.getElem?_eq_getElem h]
          rw [htake, hdrop]
          simp only [List.map_append, List.map_cons, List.map_nil, List.filter_cons]
          rw [if_pos (show (cInfo bones[i]).2.1 = true by simp [cInfo, hflag])]
          simp
        · rw [if_neg hflag]
          set bones' := collapse_reparent i bones[i].parent 0
            (bones.eraseIdx i) with hb'
          have herase : (bones.eraseIdx i).length = bones.length - 1 := by
            rw [List.length_eraseIdx]
            simp [h]
          have hlen' : bones'.length = bones.length - 1 := by
            rw [hb', collapse_reparent_length, herase]
          rw [ih bones' i (by omega)]
          have hmp : bones'.map cInfo =
              (bones.take i).map cInfo ++ (bones.drop (i + 1)).map cInfo := by
            rw [hb', collapse_reparent_map_cInfo,
              List.eraseIdx_eq_take_drop_succ, List.map_append]
          have hAlen : ((bones.take i).map cInfo).length = i := by
            rw [List.length_map, List.length_take]
            omega
          have h1 : (bones'.take i).map cInfo = (bones.take i).map cInfo := by
            rw [List.map_take, hmp]
            exact List.take_left' hAlen
          have h2 : (bones'.drop i).map cInfo = (bones.drop (i + 1)).map cInfo := by
            rw [List.map_drop, hmp]
            exact List.drop_left' hAlen
          rw [h1, h2, hdrop]
          simp only [List.map_cons, List.filter_cons]
          rw [if_neg (show ¬ (cInfo bones[i]).2.1 = true by simp [cInfo, hflag])]
      · rw [collapse_loop, dif_neg h]
        rw [List.take_of_length_le (by omega), List.drop_eq_nil_of_le (by omega)]
        simp

/-- The spec's E2 skeleton: `root → helper → limb`, with only `limb`
flagged `USED_BY_VERTEX` (a vertex links only `limb`); world transforms
are abstract tokens 10, 20, 30. -/
def C1exBones : List (CBone ℕ) :=
  [⟨"root", none, false, 10⟩, ⟨"helper", some 0, false, 20⟩,
   ⟨"limb", some 1, true, 30⟩]

theorem C1ex_eval : collapse C1exBones = [⟨"limb", none, true, 30⟩] := by
  rw [collapse, C1exBones]
  rw [collapse_loop]
  norm_num [collapse_reparent, List.eraseIdx]
  rw [collapse_loop]
  norm_num [collapse_reparent, List.eraseIdx]
  rw [collapse_loop]
  norm_num
  rw [collapse_loop]
  norm_num

/-- C1 counterexample: for the E2 skeleton `root → helper → limb` with a
vertex linking only `limb`, the collapse loop removes *both* unflagged
ancestors: the processed skeleton is exactly `[limb]` with
`limb.parent = None` — not `[root, limb]` with `limb.parent =
index_of(root)` — so the flagged bone's ancestor chain does not
survive. -/
theorem C1_counterexample :
    collapse C1exBones = [⟨"limb", none, true, 30⟩] ∧
    "root" ∉ (collapse C1exBones).map (fun b => b.name) ∧
    (collapse C1exBones).map (fun b => b.name) ≠ ["root", "limb"] := by
  refine ⟨C1ex_eval, ?_, ?_⟩
  · rw [C1ex_eval]
    decide
  · rw [C1ex_eval]
    decide

/-- C1 (amended): the collapse step keeps exactly the bones whose flag
set is nonempty (`USED_BY_VERTEX`), in order, each with name, flag and
world transform unchanged; unflagged bones — including unflagged
ancestors of flagged bones — are all removed.  For the E2 skeleton
`root → helper → limb` with only `limb` flagged, the processed skeleton
is exactly `[limb]`, with `limb.parent = None` and `limb`'s world
transform unchanged. -/
theorem C1_collapse_keeps_exactly_flagged :
    (∀ (W : Type) (bones : List (CBone W)),
      (collapse bones).map cInfo = (bones.map cInfo).filter (fun t => t.2.1)) ∧
    collapse C1exBones = [⟨"limb", none, true, 30⟩] := by
  constructor
  · intro W bones
    have h := collapse_loop_map_cInfo (W := W) bones.length bones 0 (by omega)
    rw [collapse, h]
    simp
  · exact C1ex_eval

/-!
## `process/mesh.rs`: `triangulate_face` (lines 164-206)

A triangle passes through unchanged, a quad becomes `(0,1,2), (2,3,0)`,
and larger polygons are fan-triangulated from the vertex whose summed
distance to its non-adjacent vertices is minimal.  Vertex locations are
an abstract type `α` and `(edge - center).length()` is the abstract
`len center edge` (a `glam` primitive); `f64::MAX` as the initial
minimum is modelled by an `Option ℚ` accumulator that always updates on
the first iteration.  Slice indexing `face[i]` (always in range in the
code) is `face.getD i 0`.
-/

/-- The inner distance accumulation for candidate centre `loop_index`:
`for distance_loop_index in 2..index_count - 1`. -/
def dist_sum {α : Type} (face : List ℕ) (vertices : ℕ → α) (len : α → α → ℚ)
    (loop_index : ℕ) : ℚ :=
  ((((List.range (face.length - 1)).drop 2)).map (fun d =>
    len (vertices (face.getD loop_index 0))
      (vertices (face.getD ((loop_index + d) % face.length) 0)))).sum

/-- The minimum-distance scan: fold over `0..index_count` tracking
`(minimum_index, minimum_distance)`. -/
def min_index_fold (sums : ℕ → ℚ) (n : ℕ) : ℕ × Option ℚ :=
  (List.range n).foldl
    (fun acc j =>
      match acc.2 with
      | none => (j, some (sums j))
      | some b => if sums j < b then (j, some (sums j)) else acc)
    (0, none)

/-- Fan triangulation from vertex position `m`:
`for triangle_build_index in 1..index_count - 1`. -/
def fan_triangles (face : List ℕ) (m : ℕ) : List (ℕ × ℕ × ℕ) :=
  (List.range (face.length - 2)).map (fun k =>
    (face.getD m 0,
     face.getD ((m + (k + 1)) % face.length) 0,
     face.getD ((m + (k + 1) + 1) % face.length) 0))

/-- `triangulate_face`. -/
def triangulate_face {α : Type} (face : List ℕ) (vertices : ℕ → α)
    (len : α → α → ℚ) : List (ℕ × ℕ × ℕ) :=
  if face.length = 3 then
    [(face.getD 0 0, face.getD 1 0, face.getD 2 0)]
  else if face.length = 4 then
    [(face.getD 0 0, face.getD 1 0, face.getD 2 0),
     (face.getD 2 0, face.getD 3 0, face.getD 0 0)]
  else
    fan_triangles face (min_index_fold (dist_sum face vertices len) face.length).1

/-- A triangle's vertex-index set. -/
def triVert (x : ℕ) (t : ℕ × ℕ × ℕ) : Prop :=
  x = t.1 ∨ x = t.2.1 ∨ x = t.2.2

theorem min_index_fold_spec (sums : ℕ → ℚ) :
    ∀ n, 1 ≤ n →
      (min_index_fold sums n).1 < n ∧
      (min_index_fold sums n).2 = some (sums (min_index_fold sums n).1) ∧
      ∀ k < n, sums (min_index_fold sums n).1 ≤ sums k := by
  intro n
  induction n with
  | zero => intro h; omega
  | succ n ih =>
      intro _
      by_cases hn : 1 ≤ n
      · obtain ⟨h1, h2, h3⟩ := ih hn
        unfold min_index_fold at h1 h2 h3 ⊢
        rw [List.range_succ, List.foldl_append, List.foldl_cons, List.foldl_nil]
        rw [h2]
        dsimp only
        split
        · refine ⟨by omega, rfl, ?_⟩
          intro k hk
          rcases Nat.lt_succ_iff_lt_or_eq.mp hk with hk' | hk'
          · exact le_trans (le_of_lt (by assumption)) (h3 k hk')
          · subst hk'; rfl
        · refine ⟨by omega, h2, ?_⟩
          intro k hk
          rcases Nat.lt_succ_iff_lt_or_eq.mp hk with hk' | hk'
          · exact h3 k hk'
          · subst hk'; linarith [not_lt.mp (by assumption)]
      · have hn0 : n = 0 := by omega
        subst hn0
        have h1 : min_index_fold sums 1 = (0, some (sums 0)) := rfl
        refine ⟨by simp [h1], by simp [h1], ?_⟩
        intro k hk
        have hk0 : k = 0 := by omega
        subst hk0
        simp [h1]

theorem fan_triangles_union (face : List ℕ) (m : ℕ) (hm : m < face.length)
    (h3 : 3 ≤ face.length) (x : ℕ) :
    (∃ t ∈ fan_triangles face m, triVert x t) ↔ x ∈ face := by
  set n := face.length with hn
  have hnpos : 0 < n := by omega
  constructor
  · rintro ⟨t, ht, hv⟩
    unfold fan_triangles at ht
    rw [List.mem_map] at ht
    obtain ⟨k, hk, rfl⟩ := ht
    have hmem : ∀ i, i < n → face.getD i 0 ∈ face := by
      intro i hi
      rw [List.getD_eq_getElem?_getD, List.getElem?_eq_getElem hi]
      exact List.getElem_mem _
    rcases hv with hv | hv | hv <;> subst hv
    · exact hmem m hm
    · exact hmem _ (Nat.mod_lt _ hnpos)
    · exact hmem _ (Nat.mod_lt _ hnpos)
  · intro hx
    obtain ⟨i, hi, hix⟩ := List.mem_iff_getElem.mp hx
    have hgetD : face.getD i 0 = x := by
      rw [List.getD_eq_getElem?_getD, List.getElem?_eq_getElem hi]
      exact hix
    by_cases him : i = m
    · refine ⟨(face.getD m 0, face.getD ((m + 1) % n) 0,
        face.getD ((m + 2) % n) 0), ?_, Or.inl ?_⟩
      · unfold fan_triangles
        rw [List.mem_map]
        exact ⟨0, by rw [List.mem_range]; omega, rfl⟩
      · rw [← hgetD, him]
    · set k := (i + n - m) % n with hk
      have hkn : k < n := Nat.mod_lt _ hnpos
      have hadd : (m + k) % n = i := by
        rw [hk, Nat.add_mod_mod, show m + (i + n - m) = i + n by omega,
          Nat.add_mod_right, Nat.mod_eq_of_lt hi]
      have hk0 : k ≠ 0 := by
        intro h0
        rw [h0, Nat.add_zero, Nat.mod_eq_of_lt (by omega)] at hadd
        exact him hadd.symm
      by_cases hksmall : k ≤ n - 2
      · refine ⟨(face.getD m 0, face.getD ((m + k) % n) 0,
          face.getD ((m + k + 1) % n) 0), ?_, Or.inr (Or.inl ?_)⟩
        · unfold fan_triangles
          rw [List.mem_map]
          refine ⟨k - 1, by rw [List.mem_range]; omega, ?_⟩
          rw [show k - 1 + 1 = k by omega]
        · rw [hadd, hgetD]
      · have hklast : k = n - 1 := by omega
        refine ⟨(face.getD m 0, face.getD ((m + (n - 2)) % n) 0,
          face.getD ((m + (n - 2) + 1) % n) 0), ?_, Or.inr (Or.inr ?_)⟩
        · unfold fan_triangles
          rw [List.mem_map]
          refine ⟨n - 3, by rw [List.mem_range]; omega, ?_⟩
          rw [show n - 3 + 1 = n - 2 by omega]
        · rw [show m + (n - 2) + 1 = m + k by omega, hadd, hgetD]

theorem list_length_eq_four {β : Type} (l : List β) (h : l.length = 4) :
    ∃ a b c d, l = [a, b, c, d] := by
  match l, h with
  | [a, b, c, d], _ => exact ⟨a, b, c, d, rfl⟩

/-- C8: for every polygon face with at least 3 vertex indices,
`triangulate_face` returns exactly `n - 2` triangles whose union of
vertex-index sets equals the polygon's vertex-index set; a triangle is
returned unchanged, a quad becomes `(0,1,2), (2,3,0)`, and any larger
polygon is fan-triangulated from a vertex minimising the summed
distance to its non-adjacent vertices. -/
theorem C8_triangulate_face {α : Type} (face : List ℕ) (vertices : ℕ → α)
    (len : α → α → ℚ) (h3 : 3 ≤ face.length) :
    (triangulate_face face vertices len).length = face.length - 2 ∧
    (∀ x, (∃ t ∈ triangulate_face face vertices len, triVert x t) ↔ x ∈ face) ∧
    (face.length = 3 → triangulate_face face vertices len =
      [(face.getD 0 0, face.getD 1 0, face.getD 2 0)]) ∧
    (face.length = 4 → triangulate_face face vertices len =
      [(face.getD 0 0, face.getD 1 0, face.getD 2 0),
       (face.getD 2 0, face.getD 3 0, face.getD 0 0)]) ∧
    (5 ≤ face.length →
      ∃ m < face.length, triangulate_face face vertices len = fan_triangles face m ∧
        ∀ j < face.length,
          dist_sum face vertices len m ≤ dist_sum face vertices len j) := by
  by_cases hc3 : face.length = 3
  · obtain ⟨a, b, c, rfl⟩ := List.length_eq_three.mp hc3
    refine ⟨rfl, ?_, fun _ => rfl, fun h4 => by simp at h4, fun h5 => by omega⟩
    intro x
    unfold triangulate_face
    simp only [triVert]
    simp <;> tauto
  · by_cases hc4 : face.length = 4
    · obtain ⟨a, b, c, d, rfl⟩ := list_length_eq_four face hc4
      refine ⟨rfl, ?_, fun h => by simp at h, fun _ => rfl, fun h5 => by omega⟩
      intro x
      unfold triangulate_face
      simp only [triVert]
      simp <;> tauto
    · have h5 : 5 ≤ face.length := by omega
      have hm := min_index_fold_spec (dist_sum face vertices len) face.length
        (by omega)
      have heq : triangulate_face face vertices len =
          fan_triangles face
            (min_index_fold (dist_sum face vertices len) face.length).1 := by
        unfold triangulate_face
        rw [if_neg hc3, if_neg hc4]
      refine ⟨?_, ?_, fun h => absurd h hc3, fun h => absurd h hc4, ?_⟩
      · rw [heq]
        unfold fan_triangles
        rw [List.length_map, List.length_range]
      · intro x
        rw [heq]
        exact fan_triangles_union face _ hm.1 h3 x
      · intro _
        exact ⟨_, hm.1, heq, hm.2.2⟩

/-- C8 witness: the quad `[0,1,2,3]` (with degenerate locations and a
zero length function) yields `4 - 2 = 2` triangles in the claimed shape. -/
theorem C8_triangulate_face_witness :
    (3 ≤ ([0, 1, 2, 3] : List ℕ).length) ∧
    (triangulate_face [0, 1, 2, 3] (fun _ => (0 : ℚ)) (fun _ _ => 0)).length =
      ([0, 1, 2, 3] : List ℕ).length - 2 ∧
    triangulate_face [0, 1, 2, 3] (fun _ => (0 : ℚ)) (fun _ _ => 0) =
      [(0, 1, 2), (2, 3, 0)] :=
  ⟨by decide,
   (C8_triangulate_face [0, 1, 2, 3] (fun _ => (0 : ℚ)) (fun _ _ => 0)
     (by decide)).1,
   by
    rw [(C8_triangulate_face [0, 1, 2, 3] (fun _ => (0 : ℚ)) (fun _ _ => 0)
      (by decide)).2.2.2.1 (by decide)]
    rfl⟩

/-!
## `process/mesh.rs`: `vertices_remap_links` (lines 255-278)

Per vertex: map each link's bone through the import-to-processed remap,
merge duplicate bones by summing weights (`IndexMap` entry order),
stable-sort by descending weight, count the vertex toward the cull
warning if more than three links remain, truncate to three, divide each
weight by the kept sum, and stable-sort by ascending bone index.  The
bone remap array built in lines 216-253 enters as a function parameter.
-/

structure TriangleVertexLink where
  bone : ℕ
  weight : ℚ
deriving DecidableEq, Repr

/-- `*unique_links.entry(link.bone).or_insert(0.0) += link.weight` on the
insertion-ordered map. -/
def merge_into (acc : List (ℕ × ℚ)) (bone : ℕ) (w : ℚ) : List (ℕ × ℚ) :=
  match acc with
  | [] => [(bone, w)]
  | (b, x) :: rest =>
      if b = bone then (b, x + w) :: rest else (b, x) :: merge_into rest bone w

/-- The link-merging pass over one vertex's (already remapped) links. -/
def merge_links (links : List TriangleVertexLink) : List (ℕ × ℚ) :=
  links.foldl (fun acc l => merge_into acc l.bone l.weight) []

/-- One step of the stable descending-weight sort
(`sort_by(|a, b| b.weight.partial_cmp(&a.weight))`): the new element
goes after every element of equal or larger weight. -/
def insert_desc (x : TriangleVertexLink) :
    List TriangleVertexLink → List TriangleVertexLink
  | [] => [x]
  | y :: ys => if x.weight ≤ y.weight then y :: insert_desc x ys else x :: y :: ys

def sort_desc (links : List TriangleVertexLink) : List TriangleVertexLink :=
  links.foldl (fun acc x => insert_desc x acc) []

/-- One step of the stable ascending-bone sort
(`sort_by(|a, b| a.bone.cmp(&b.bone))`). -/
def insert_asc (x : TriangleVertexLink) :
    List TriangleVertexLink → List TriangleVertexLink
  | [] => [x]
  | y :: ys => if y.bone ≤ x.bone then y :: insert_asc x ys else x :: y :: ys

def sort_asc (links : List TriangleVertexLink) : List TriangleVertexLink :=
  links.foldl (fun acc x => insert_asc x acc) []

/-- The remapped-and-merged links of one vertex (`// Map links` and
`// Merge links`): each bone goes through the remap, then duplicate
bones are merged by summing weights. -/
def vrl_merged (remap : ℕ → ℕ) (links : List TriangleVertexLink) :
    List TriangleVertexLink :=
  (merge_links (links.map (fun l => TriangleVertexLink.mk (remap l.bone) l.weight))).map
    (fun e => TriangleVertexLink.mk e.1 e.2)

/-- The links kept after the descending-weight sort and
`links.truncate(3)`. -/
def vrl_kept (remap : ℕ → ℕ) (links : List TriangleVertexLink) :
    List TriangleVertexLink :=
  (sort_desc (vrl_merged remap links)).take 3

/-- `weight_sum`, the normalisation divisor. -/
def vrl_weight_sum (remap : ℕ → ℕ) (links : List TriangleVertexLink) : ℚ :=
  ((vrl_kept remap links).map (fun l => l.weight)).sum

/-- The body of the per-vertex loop of `vertices_remap_links`: returns
the vertex's new links and whether the vertex was counted toward the
culled-links warning (`vertex.links.len() > 3` before truncation). -/
def vertex_remap_links (remap : ℕ → ℕ) (links : List TriangleVertexLink) :
    List TriangleVertexLink × Bool :=
  (sort_asc ((vrl_kept remap links).map
      (fun l => TriangleVertexLink.mk l.bone (l.weight / vrl_weight_sum remap links))),
   decide (3 < (vrl_merged remap links).length))

/-- `vertices_remap_links` over the whole triangle list: rewrites every
vertex's links and accumulates `vertex_link_cull_count`. -/
def vertices_remap_links (remap : ℕ → ℕ)
    (vertices : List (List TriangleVertexLink)) :
    List (List TriangleVertexLink) × ℕ :=
  vertices.foldl
    (fun acc v =>
      let r := vertex_remap_links remap v
      (acc.1 ++ [r.1], acc.2 + if r.2 then 1 else 0))
    ([], 0)

theorem merge_into_sum (acc : List (ℕ × ℚ)) (bone : ℕ) (w : ℚ) :
    ((merge_into acc bone w).map (fun e => e.2)).sum =
      (acc.map (fun e => e.2)).sum + w := by
  induction acc with
  | nil => simp [merge_into]
  | cons hd tl ih =>
      obtain ⟨b, x⟩ := hd
      unfold merge_into
      by_cases hb : b = bone
      · simp [hb]
        ring
      · simp [hb, ih]
        ring

theorem merge_into_keys (acc : List (ℕ × ℚ)) (bone : ℕ) (w : ℚ) :
    (merge_into acc bone w).map (fun e => e.1) =
      if bone ∈ acc.map (fun e => e.1) then acc.map (fun e => e.1)
      else acc.map (fun e => e.1) ++ [bone] := by
  induction acc with
  | nil => simp [merge_into]
  | cons hd tl ih =>
      obtain ⟨b, x⟩ := hd
      unfold merge_into
      by_cases hb : b = bone
      · simp [hb]
      · have hbne : ¬ bone = b := fun h => hb h.symm
        simp only [List.map_cons, if_neg hb, ih, List.mem_cons]
        by_cases hmem : bone ∈ tl.map (fun e => e.1)
        · simp [hmem, hbne]
        · simp [hmem, hbne]

theorem merge_into_keys_nodup (acc : List (ℕ × ℚ)) (bone : ℕ) (w : ℚ)
    (h : (acc.map (fun e => e.1)).Nodup) :
    ((merge_into acc bone w).map (fun e => e.1)).Nodup := by
  rw [merge_into_keys]
  by_cases hmem : bone ∈ acc.map (fun e => e.1)
  · rwa [if_pos hmem]
  · rw [if_neg hmem]
    rw [List.nodup_append]
    exact ⟨h, List.nodup_singleton _, by simpa using hmem⟩

theorem merge_into_length (acc : List (ℕ × ℚ)) (bone : ℕ) (w : ℚ) :
    acc.length ≤ (merge_into acc bone w).length := by
  induction acc with
  | nil => simp [merge_into]
  | cons hd tl ih =>
      obtain ⟨b, x⟩ := hd
      unfold merge_into
      by_cases hb : b = bone
      · simp [hb]
      · simpa [hb] using ih

theorem merge_links_sum (links : List TriangleVertexLink) :
    ((merge_links links).map (fun e => e.2)).sum =
      (links.map (fun l => l.weight)).sum := by
  have haux : ∀ (ls : List TriangleVertexLink) (acc : List (ℕ × ℚ)),
      ((ls.foldl (fun acc l => merge_into acc l.bone l.weight) acc).map
        (fun e => e.2)).sum =
        (acc.map (fun e => e.2)).sum + (ls.map (fun l => l.weight)).sum := by
    intro ls
    induction ls with
    | nil => intro acc; simp
    | cons hd tl ih =>
        intro acc
        rw [List.foldl_cons, ih, merge_into_sum]
        simp
        ring
  have := haux links []
  simpa [merge_links] using this

theorem merge_links_keys_nodup (links : List TriangleVertexLink) :
    ((merge_links links).map (fun e => e.1)).Nodup := by
  have haux : ∀ (ls : List TriangleVertexLink) (acc : List (ℕ × ℚ)),
      (acc.map (fun e => e.1)).Nodup →
      ((ls.foldl (fun acc l => merge_into acc l.bone l.weight) acc).map
        (fun e => e.1)).Nodup := by
    intro ls
    induction ls with
    | nil => intro acc h; exact h
    | cons hd tl ih =>
        intro acc h
        exact ih _ (merge_into_keys_nodup _ _ _ h)
  exact haux links [] (by simp)

theorem merge_links_length_pos (links : List TriangleVertexLink)
    (h : links ≠ []) : 1 ≤ (merge_links links).length := by
  have haux : ∀ (ls : List TriangleVertexLink) (acc : List (ℕ × ℚ)),
      acc.length ≤
        (ls.foldl (fun acc l => merge_into acc l.bone l.weight) acc).length := by
    intro ls
    induction ls with
    | nil => intro acc; exact le_refl _
    | cons hd tl ih =>
        intro acc
        exact le_trans (merge_into_length _ _ _) (ih _)
  cases links with
  | nil => exact absurd rfl h
  | cons hd tl =>
      have := haux tl (merge_into [] hd.bone hd.weight)
      unfold merge_links
      rw [List.foldl_cons]
      exact le_trans (by simp [merge_into]) this

theorem insert_desc_perm (x : TriangleVertexLink) (l : List TriangleVertexLink) :
    List.Perm (insert_desc x l) (x :: l) := by
  induction l with
  | nil => rfl
  | cons y ys ih =>
      unfold insert_desc
      by_cases hw : x.weight ≤ y.weight
      · rw [if_pos hw]
        exact (List.Perm.cons y ih).trans (List.Perm.swap x y ys)
      · rw [if_neg hw]

theorem sort_desc_perm (l : List TriangleVertexLink) :
    List.Perm (sort_desc l) l := by
  have haux : ∀ (ls acc : List TriangleVertexLink),
      List.Perm (ls.foldl (fun acc x => insert_desc x acc) acc) (acc ++ ls) := by
    intro ls
    induction ls with
    | nil => intro acc; simp
    | cons x xs ih =>
        intro acc
        rw [List.foldl_cons]
        refine ((ih (insert_desc x acc)).trans ?_)
        have h1 : List.Perm (insert_desc x acc ++ xs) ((x :: acc) ++ xs) :=
          (insert_desc_perm x acc).append_right xs
        exact h1.trans List.perm_middle.symm
  simpa using haux l []

theorem insert_desc_pairwise (x : TriangleVertexLink)
    (l : List TriangleVertexLink)
    (h : l.Pairwise (fun a b => b.weight ≤ a.weight)) :
    (insert_desc x l).Pairwise (fun a b => b.weight ≤ a.weight) := by
  induction l with
  | nil => simp [insert_desc]
  | cons y ys ih =>
      rw [List.pairwise_cons] at h
      unfold insert_desc
      by_cases hw : x.weight ≤ y.weight
      · rw [if_pos hw, List.pairwise_cons]
        refine ⟨?_, ih h.2⟩
        intro z hz
        rcases List.mem_cons.mp ((insert_desc_perm x ys).mem_iff.mp hz) with hz' | hz'
        · subst hz'
          exact hw
        · exact h.1 z hz'
      · rw [if_neg hw, List.pairwise_cons]
        refine ⟨?_, List.pairwise_cons.mpr h⟩
        intro z hz
        rcases List.mem_cons.mp hz with hz' | hz'
        · subst hz'
          linarith [lt_of_not_le hw]
        · linarith [h.1 z hz', lt_of_not_le hw]

theorem sort_desc_pairwise (l : List TriangleVertexLink) :
    (sort_desc l).Pairwise (fun a b => b.weight ≤ a.weight) := by
  have haux : ∀ (ls acc : List TriangleVertexLink),
      acc.Pairwise (fun a b => b.weight ≤ a.weight) →
      (ls.foldl (fun acc x => insert_desc x acc) acc).Pairwise
        (fun a b => b.weight ≤ a.weight) := by
    intro ls
    induction ls with
    | nil => intro acc h; exact h
    | cons x xs ih => intro acc h; exact ih _ (insert_desc_pairwise x acc h)
  exact haux l [] List.Pairwise.nil

theorem insert_asc_perm (x : TriangleVertexLink) (l : List TriangleVertexLink) :
    List.Perm (insert_asc x l) (x :: l) := by
  induction l with
  | nil => rfl
  | cons y ys ih =>
      unfold insert_asc
      by_cases hb : y.bone ≤ x.bone
      · rw [if_pos hb]
        exact (List.Perm.cons y ih).trans (List.Perm.swap x y ys)
      · rw [if_neg hb]

theorem sort_asc_perm (l : List TriangleVertexLink) :
    List.Perm (sort_asc l) l := by
  have haux : ∀ (ls acc : List TriangleVertexLink),
      List.Perm (ls.foldl (fun acc x => insert_asc x acc) acc) (acc ++ ls) := by
    intro ls
    induction ls with
    | nil => intro acc; simp
    | cons x xs ih =>
        intro acc
        rw [List.foldl_cons]
        refine ((ih (insert_asc x acc)).trans ?_)
        have h1 : List.Perm (insert_asc x acc ++ xs) ((x :: acc) ++ xs) :=
          (insert_asc_perm x acc).append_right xs
        exact h1.trans List.perm_middle.symm
  simpa using haux l []

theorem insert_asc_pairwise (x : TriangleVertexLink)
    (l : List TriangleVertexLink)
    (h : l.Pairwise (fun a b => a.bone ≤ b.bone)) :
    (insert_asc x l).Pairwise (fun a b => a.bone ≤ b.bone) := by
  induction l with
  | nil => simp [insert_asc]
  | cons y ys ih =>
      rw [List.pairwise_cons] at h
      unfold insert_asc
      by_cases hb : y.bone ≤ x.bone
      · rw [if_pos hb, List.pairwise_cons]
        refine ⟨?_, ih h.2⟩
        intro z hz
        rcases List.mem_cons.mp ((insert_asc_perm x ys).mem_iff.mp hz) with hz' | hz'
        · subst hz'
          exact hb
        · exact h.1 z hz'
      · rw [if_neg hb, List.pairwise_cons]
        refine ⟨?_, List.pairwise_cons.mpr h⟩
        intro z hz
        rcases List.mem_cons.mp hz with hz' | hz'
        · subst hz'
          omega
        · have := h.1 z hz'
          omega

theorem sort_asc_pairwise (l : List TriangleVertexLink) :
    (sort_asc l).Pairwise (fun a b => a.bone ≤ b.bone) := by
  have haux : ∀ (ls acc : List TriangleVertexLink),
      acc.Pairwise (fun a b => a.bone ≤ b.bone) →
      (ls.foldl (fun acc x => insert_asc x acc) acc).Pairwise
        (fun a b => a.bone ≤ b.bone) := by
    intro ls
    induction ls with
    | nil => intro acc h; exact h
    | cons x xs ih => intro acc h; exact ih _ (insert_asc_pairwise x acc h)
  exact haux l [] List.Pairwise.nil

theorem list_sum_nonpos (l : List ℚ) (h : ∀ x ∈ l, x ≤ 0) : l.sum ≤ 0 := by
  induction l with
  | nil => simp
  | cons x xs ih =>
      rw [List.sum_cons]
      have h1 := h x (List.mem_cons_self _ _)
      have h2 := ih (fun y hy => h y (List.mem_cons_of_mem _ hy))
      linarith

theorem list_sum_div (l : List ℚ) (s : ℚ) :
    (l.map (fun x => x / s)).sum = l.sum / s := by
  induction l with
  | nil => simp
  | cons x xs ih =>
      rw [List.map_cons, List.sum_cons, List.sum_cons, ih, add_div]

/-- C6: after link remapping, every vertex whose imported links have
positive total weight ends with between 1 and 3 links, with no
duplicate bone and strictly ascending processed-bone indices, and with
weights summing to exactly 1 (hence within any `f32` tolerance); a
vertex is counted toward the per-model culled-links warning exactly
when its merged links exceeded three. -/
theorem C6_weight_normalization (remap : ℕ → ℕ) :
    (∀ links : List TriangleVertexLink,
      0 < (links.map (fun l => l.weight)).sum →
      (1 ≤ (vertex_remap_links remap links).1.length ∧
        (vertex_remap_links remap links).1.length ≤ 3) ∧
      (vertex_remap_links remap links).1.Pairwise (fun a b => a.bone < b.bone) ∧
      ((vertex_remap_links remap links).1.map (fun l => l.weight)).sum = 1) ∧
    (∀ links : List TriangleVertexLink,
      ((vertex_remap_links remap links).2 = true ↔
        3 < (vrl_merged remap links).length)) ∧
    (∀ vertices : List (List TriangleVertexLink),
      (vertices_remap_links remap vertices).2 =
        (vertices.filter
          (fun v => decide (3 < (vrl_merged remap v).length))).length) := by
  have hcull : ∀ links, (vertex_remap_links remap links).2 = true ↔
      3 < (vrl_merged remap links).length := by
    intro links
    unfold vertex_remap_links
    simp
  refine ⟨?_, hcull, ?_⟩
  · intro links h
    set merged := vrl_merged remap links with hmerged
    set sorted := sort_desc merged with hsorted
    set kept := vrl_kept remap links with hkept
    have hkept' : kept = sorted.take 3 := rfl
    set s := vrl_weight_sum remap links with hs
    have hs' : s = (kept.map (fun l => l.weight)).sum := rfl
    set normalized := kept.map
      (fun l => TriangleVertexLink.mk l.bone (l.weight / s)) with hnorm
    have hres : (vertex_remap_links remap links).1 = sort_asc normalized := rfl
    have htotal : (merged.map (fun l => l.weight)).sum =
        (links.map (fun l => l.weight)).sum := by
      rw [hmerged]
      unfold vrl_merged
      rw [List.map_map]
      rw [show ((fun l : TriangleVertexLink => l.weight) ∘
        (fun e : ℕ × ℚ => TriangleVertexLink.mk e.1 e.2)) =
        (fun e : ℕ × ℚ => e.2) from rfl]
      rw [merge_links_sum, List.map_map]
      rfl
    have hlinks_ne : links ≠ [] := by
      intro hnil
      rw [hnil] at h
      simp at h
    have hmerged_pos : 1 ≤ merged.length := by
      rw [hmerged]
      unfold vrl_merged
      rw [List.length_map]
      apply merge_links_length_pos
      simpa using hlinks_ne
    have hperm : List.Perm sorted merged := sort_desc_perm merged
    have hslen : sorted.length = merged.length := hperm.length_eq
    have hsort_sum : (sorted.map (fun l => l.weight)).sum =
        (links.map (fun l => l.weight)).sum := by
      rw [(hperm.map (fun l => l.weight)).sum_eq, htotal]
    have hsplit : kept ++ sorted.drop 3 = sorted := by
      rw [hkept']
      exact List.take_append_drop 3 sorted
    have hpw : sorted.Pairwise (fun a b => b.weight ≤ a.weight) :=
      sort_desc_pairwise merged
    have hpw_split := List.pairwise_append.mp (hsplit ▸ hpw)
    have hsum_split : (kept.map (fun l => l.weight)).sum +
        ((sorted.drop 3).map (fun l => l.weight)).sum =
        (links.map (fun l => l.weight)).sum := by
      have hcongr := congrArg
        (fun l : List TriangleVertexLink => (l.map (fun l => l.weight)).sum) hsplit
      simp only [List.map_append, List.sum_append] at hcongr
      rw [hcongr, hsort_sum]
    have hkeptlen : kept.length = min 3 sorted.length := by
      rw [hkept']
      exact List.length_take 3 sorted
    have hkl1 : 1 ≤ kept.length := by omega
    have hkl3 : kept.length ≤ 3 := by omega
    have hspos : 0 < s := by
      rw [hs']
      by_cases hdp : ∃ d ∈ sorted.drop 3, 0 < d.weight
      · obtain ⟨d, hd, hdw⟩ := hdp
        apply List.sum_pos
        · intro x hx
          obtain ⟨k, hk, rfl⟩ := List.mem_map.mp hx
          exact lt_of_lt_of_le hdw (hpw_split.2.2 k hk d hd)
        · intro hnil
          have hke : kept = [] := by simpa using hnil
          rw [hke] at hkl1
          simp at hkl1
      · push_neg at hdp
        have hd0 : ((sorted.drop 3).map (fun l => l.weight)).sum ≤ 0 := by
          apply list_sum_nonpos
          intro x hx
          obtain ⟨d, hd, rfl⟩ := List.mem_map.mp hx
          exact hdp d hd
        linarith
    have hrnperm : List.Perm (sort_asc normalized) normalized :=
      sort_asc_perm normalized
    refine ⟨⟨?_, ?_⟩, ?_, ?_⟩
    · rw [hres, hrnperm.length_eq, hnorm, List.length_map]
      omega
    · rw [hres, hrnperm.length_eq, hnorm, List.length_map]
      omega
    · have hasc : (sort_asc normalized).Pairwise (fun a b => a.bone ≤ b.bone) :=
        sort_asc_pairwise normalized
      have hnodup : ((sort_asc normalized).map (fun l => l.bone)).Nodup := by
        rw [(hrnperm.map (fun l => l.bone)).nodup_iff]
        have h1 : normalized.map (fun l => l.bone) = kept.map (fun l => l.bone) := by
          rw [hnorm, List.map_map]
          rfl
        rw [h1, hkept', List.map_take]
        refine List.Nodup.sublist (List.take_sublist _ _) ?_
        rw [(hperm.map (fun l => l.bone)).nodup_iff]
        have h2 : merged.map (fun l => l.bone) =
            (merge_links (links.map (fun l =>
              TriangleVertexLink.mk (remap l.bone) l.weight))).map
              (fun e => e.1) := by
          rw [hmerged]
          unfold vrl_merged
          rw [List.map_map]
          rfl
        rw [h2]
        exact merge_links_keys_nodup _
      rw [hres]
      have hne : (sort_asc normalized).Pairwise (fun a b => a.bone ≠ b.bone) :=
        List.pairwise_map.mp hnodup
      exact (hasc.and hne).imp (fun hab => lt_of_le_of_ne hab.1 hab.2)
    · rw [hres, (hrnperm.map (fun l => l.weight)).sum_eq]
      have h1 : normalized.map (fun l => l.weight) =
          kept.map (fun l => l.weight / s) := by
        rw [hnorm, List.map_map]
        rfl
      rw [h1, show (fun l : TriangleVertexLink => l.weight / s) =
        ((fun x : ℚ => x / s) ∘ (fun l : TriangleVertexLink => l.weight)) from rfl,
        ← List.map_map, list_sum_div, ← hs']
      exact div_self (ne_of_gt hspos)
  · intro vertices
    have haux : ∀ (vs : List (List TriangleVertexLink))
        (acc : List (List TriangleVertexLink) × ℕ),
        (vs.foldl (fun acc v =>
          let r := vertex_remap_links remap v
          (acc.1 ++ [r.1], acc.2 + if r.2 then 1 else 0)) acc).2 =
          acc.2 + (vs.filter
            (fun v => decide (3 < (vrl_merged remap v).length))).length := by
      intro vs
      induction vs with
      | nil => intro acc; simp
      | cons v rest ih =>
          intro acc
          rw [List.foldl_cons, ih, List.filter_cons]
          dsimp only
          cases hb : (vertex_remap_links remap v).2 with
          | true =>
              have hb' : decide (3 < (vrl_merged remap v).length) = true := hb
              rw [hb']
              simp <;> omega
          | false =>
              have hb' : decide (3 < (vrl_merged remap v).length) = false := hb
              rw [hb']
              simp <;> omega
    unfold vertices_remap_links
    rw [haux vertices ([], 0)]
    simp

/-- C6 witness: a single-link vertex of weight 1 has positive total
weight and normalises to a single link of weight 1. -/
theorem C6_weight_normalization_witness :
    (0 : ℚ) < (([TriangleVertexLink.mk 0 1]).map (fun l => l.weight)).sum ∧
    (((vertex_remap_links id [TriangleVertexLink.mk 0 1]).1).map
      (fun l => l.weight)).sum = 1 :=
  ⟨by simp,
   ((C6_weight_normalization id).1 [TriangleVertexLink.mk 0 1] (by simp)).2.2⟩

/-!
## `import/dmx.rs`: `load_joints` (lines 101-160)

The skeleton walk.  The duplicate-name check at the top of
`load_joints` consults `file_data.parts` — not the skeleton — and
`load_joints` itself never touches `parts`; parts are populated only by
the later `load_mesh` traversal.  The skeleton is an `IndexMap`, whose
`insert` on an existing key replaces the value in place, keeping the
original insertion index.  Elements are modelled by their UUID (`id`),
the transform sub-element carries its own id (the version-&lt;8 joint-list
membership checks the transform element, version ≥ 8 the joint itself).
-/

structure Quat where
  x : ℚ
  y : ℚ
  z : ℚ
  w : ℚ
deriving DecidableEq, Repr

structure JTransform where
  id : ℕ
  position : Option Vec3
  orientation : Option Quat
deriving DecidableEq, Repr

inductive JElem where
  | node (id : ℕ) (name : String) (transform : Option JTransform)
      (children : List JElem)

structure DBone where
  parent : Option ℕ
  location : Vec3
  rotation : Quat
deriving DecidableEq, Repr

/-- The slice of `FileData` that `load_joints` reads and writes. -/
structure FileDataJ where
  skeleton : List (String × DBone)
  parts : List String
deriving DecidableEq, Repr

inductive DmxError where
  | DuplicateJointName (name : String) (id : ℕ)
  | MissingRequiredAttribute (id : ℕ)
  | JointNotInJointList (id : ℕ)
deriving DecidableEq, Repr

/-- `IndexMap::insert`: replace the value in place when the key exists
(keeping its index), otherwise append. -/
def skeleton_insert (sk : List (String × DBone)) (name : String) (b : DBone) :
    List (String × DBone) :=
  match sk with
  | [] => [(name, b)]
  | (n, v) :: rest =>
      if n = name then (n, b) :: rest
      else (n, v) :: skeleton_insert rest name b

/-- Reading `transform.position` / `transform.orientation` off a joint
element (`get_attribute!`). -/
def read_joint_transform (id : ℕ) (transform : Option JTransform) :
    Except DmxError (ℕ × Vec3 × Quat) :=
  match transform with
  | none => Except.error (DmxError.MissingRequiredAttribute id)
  | some tr =>
      match tr.position, tr.orientation with
      | none, _ => Except.error (DmxError.MissingRequiredAttribute tr.id)
      | some _, none => Except.error (DmxError.MissingRequiredAttribute tr.id)
      | some pos, some rot => Except.ok (tr.id, pos, rot)

/-- The version-branched joint-list membership test
(`if let Some(joints) = joints { joints.contains(joint) }`). -/
def joint_in_list (joints : Option (List ℕ)) (format_version : ℤ)
    (tr_id id : ℕ) : Bool :=
  match joints with
  | some js => js.contains (if format_version < 8 then tr_id else id)
  | none => true

mutual

/-- `load_joints`. -/
def load_joints : JElem → Option ℕ → Option (List ℕ) → FileDataJ → ℤ →
    Except DmxError FileDataJ
  | JElem.node id name transform children, parent_index, joints, fd,
      format_version =>
    if fd.parts.contains name then
      Except.error (DmxError.DuplicateJointName name id)
    else
      match read_joint_transform id transform with
      | Except.error e => Except.error e
      | Except.ok (tr_id, pos, rot) =>
          if joint_in_list joints format_version tr_id id then
            let bone_index := some fd.skeleton.length
            let new_skeleton :=
              skeleton_insert fd.skeleton name (DBone.mk parent_index pos rot)
            let fd' : FileDataJ := { fd with skeleton := new_skeleton }
            load_joints_list children bone_index joints fd' format_version
          else
            Except.error (DmxError.JointNotInJointList id)

/-- The `for child in child_joints` loop with `?` propagation. -/
def load_joints_list : List JElem → Option ℕ → Option (List ℕ) → FileDataJ →
    ℤ → Except DmxError FileDataJ
  | [], _, _, fd, _ => Except.ok fd
  | c :: cs, parent_index, joints, fd, format_version =>
      match load_joints c parent_index joints fd format_version with
      | Except.error e => Except.error e
      | Except.ok fd' => load_joints_list cs parent_index joints fd' format_version

end

/-- Whether an error is the `DuplicateJointName` variant. -/
def DmxError.isDupJoint : DmxError → Bool
  | DmxError.DuplicateJointName _ _ => true
  | _ => false

/-- The behaviour of one `load_joints`/`load_joints_list` call on a
file-data whose `parts` are empty. -/
def jointsNoDup (r : Except DmxError FileDataJ) : Prop :=
  match r with
  | Except.ok fd => fd.parts = []
  | Except.error e => e.isDupJoint = false

theorem load_joints_noDup :
    ∀ n : ℕ,
      (∀ parent parent_index joints fd format_version,
        sizeOf parent ≤ n → fd.parts = [] →
        jointsNoDup (load_joints parent parent_index joints fd format_version)) ∧
      (∀ (children : List JElem) parent_index joints fd format_version,
        sizeOf children ≤ n → fd.parts = [] →
        jointsNoDup
          (load_joints_list children parent_index joints fd format_version)) := by
  intro n
  induction n using Nat.strong_induction_on with
  | _ n ih =>
      constructor
      · rintro ⟨id, name, transform, children⟩ parent_index joints fd
          format_version hsize hparts
        have hchild : sizeOf children < n := by
          have hs := JElem.node.sizeOf_spec id name transform children
          omega
        rw [load_joints]
        have hcontains : fd.parts.contains name = false := by
          rw [hparts]
          rfl
        rw [if_neg (by rw [hcontains]; exact Bool.false_ne_true)]
        cases hread : read_joint_transform id transform with
        | error e =>
            have hnotdup : e.isDupJoint = false := by
              cases transform with
              | none =>
                  rw [show e = DmxError.MissingRequiredAttribute id from by
                    simpa [read_joint_transform] using hread.symm]
                  rfl
              | some tr =>
                  cases hp : tr.position with
                  | none =>
                      rw [show e = DmxError.MissingRequiredAttribute tr.id from by
                        rw [read_joint_transform, hp] at hread
                        simpa using hread.symm]
                      rfl
                  | some pos =>
                      cases hr : tr.orientation with
                      | none =>
                          rw [show e = DmxError.MissingRequiredAttribute tr.id from by
                            rw [read_joint_transform, hp, hr] at hread
                            simpa using hread.symm]
                          rfl
                      | some rot =>
                          rw [read_joint_transform, hp, hr] at hread
                          simp at hread
            exact hnotdup
        | ok val =>
            obtain ⟨tr_id, pos, rot⟩ := val
            dsimp only
            split
            · exact (ih (sizeOf children) hchild).2 children _ joints
                { fd with skeleton := (skeleton_insert fd.skeleton name (DBone.mk parent_index pos rot)) }
                format_version (le_refl _) hparts
            · exact rfl
      · intro children parent_index joints fd format_version hsize hparts
        cases children with
        | nil =>
            rw [load_joints_list]
            exact hparts
        | cons c cs =>
            have hsz : sizeOf c < n ∧ sizeOf cs < n := by
              have hs := List.cons.sizeOf_spec c cs
              omega
            rw [load_joints_list]
            have hc := (ih (sizeOf c) hsz.1).1 c parent_index joints fd
              format_version (le_refl _) hparts
            cases hres : load_joints c parent_index joints fd format_version with
            | error e =>
                rw [hres] at hc
                exact hc
            | ok fd' =>
                rw [hres] at hc
                exact (ih (sizeOf cs) hsz.2).2 cs parent_index joints fd'
                  format_version (le_refl _) hc

/-- Whether a joint-walk result is the `DuplicateJointName` error. -/
def resultIsDupError : Except DmxError FileDataJ → Bool
  | Except.error e => e.isDupJoint
  | Except.ok _ => false

def C9p1 : Vec3 := ⟨1, 0, 0⟩
def C9p2 : Vec3 := ⟨2, 0, 0⟩
def C9p3 : Vec3 := ⟨3, 0, 0⟩
def C9q : Quat := ⟨0, 0, 0, 1⟩

/-- A skeleton tree with a repeated joint name: `root` with two
children both named `arm`, carrying distinct transforms. -/
def C9exTree : List JElem :=
  [JElem.node 1 "root" (some ⟨11, some C9p1, some C9q⟩)
     [JElem.node 2 "arm" (some ⟨12, some C9p2, some C9q⟩) [],
      JElem.node 3 "arm" (some ⟨13, some C9p3, some C9q⟩) []]]

theorem C9ex_eval :
    load_joints_list C9exTree none none ⟨[], []⟩ 9 =
      Except.ok ⟨[("root", ⟨none, C9p1, C9q⟩), ("arm", ⟨some 0, C9p3, C9q⟩)], []⟩ := by
  rw [C9exTree]
  simp [load_joints_list, load_joints, read_joint_transform, joint_in_list,
    skeleton_insert]

/-- C9: `load_dmx` can never return `DuplicateJointName`: the duplicate
check in `load_joints` consults `file_data.parts`, which is empty
throughout the skeleton walk (parts are populated only by the later
mesh traversal, and `load_joints` never touches them).  A joint whose
name repeats in the skeleton tree is therefore silently accepted:
`IndexMap::insert` overwrites the earlier bone's transform in place,
keeping the earlier insertion index — exhibited on a `root → (arm,
arm)` tree, where the surviving `arm` entry keeps index 1 but carries
the second joint's transform. -/
theorem C9_duplicate_joint_unreachable :
    (∀ (roots : List JElem) (joints : Option (List ℕ))
        (sk : List (String × DBone)) (format_version : ℤ),
      resultIsDupError
        (load_joints_list roots none joints ⟨sk, []⟩ format_version) = false) ∧
    (∀ (pre post : List (String × DBone)) (name : String) (b b' : DBone),
      ¬ name ∈ pre.map Prod.fst →
      skeleton_insert (pre ++ (name, b) :: post) name b' =
        pre ++ (name, b') :: post) ∧
    load_joints_list C9exTree none none ⟨[], []⟩ 9 =
      Except.ok ⟨[("root", ⟨none, C9p1, C9q⟩), ("arm", ⟨some 0, C9p3, C9q⟩)], []⟩ := by
  refine ⟨?_, ?_, C9ex_eval⟩
  · intro roots joints sk format_version
    have h := (load_joints_noDup (sizeOf roots)).2 roots none joints ⟨sk, []⟩
      format_version (le_refl _) rfl
    cases hres : load_joints_list roots none joints ⟨sk, []⟩ format_version with
    | error e =>
        rw [hres] at h
        exact h
    | ok fd' => rfl
  · intro pre post name b b' hpre
    induction pre with
    | nil => simp [skeleton_insert]
    | cons hd tl ih =>
        have hne : hd.1 ≠ name := by
          intro hcontra
          exact hpre (by rw [← hcontra]; exact List.mem_map_of_mem _ (List.mem_cons_self _ _))
        obtain ⟨n, v⟩ := hd
        rw [List.cons_append, skeleton_insert]
        rw [if_neg (by simpa using hne)]
        rw [ih (fun hmem => hpre (List.mem_cons_of_mem _ hmem))]
        rfl

/-- C9 witness: the second component applied to a one-entry prefix. -/
theorem C9_duplicate_joint_unreachable_witness :
    skeleton_insert ([("root", DBone.mk none C9p1 C9q)] ++
        ("arm", DBone.mk (some 0) C9p2 C9q) :: []) "arm"
        (DBone.mk (some 0) C9p3 C9q) =
      [("root", DBone.mk none C9p1 C9q)] ++
        ("arm", DBone.mk (some 0) C9p3 C9q) :: [] :=
  C9_duplicate_joint_unreachable.2.1 [("root", DBone.mk none C9p1 C9q)] []
    "arm" (DBone.mk (some 0) C9p2 C9q) (DBone.mk (some 0) C9p3 C9q)
    (by decide)

/-!
## `process/animation.rs`: quantization scales (`process_animations`,
lines 219-256)

Two zero `Vec3` accumulators per processed bone; every section's
`delta_position` entries update the position accumulator axis-wise with
`if value > current { current = value }` on `|value|` (which is the
axis-wise max), every `delta_rotation` entry is converted to Euler
`(roll, pitch, yaw)` and updates the rotation accumulator likewise;
finally every component is divided by `i16::MAX`.  The quaternion type
and `to_euler` are `glam` primitives, abstracted as a type `R` with a
conversion `toEuler`.  The division of deltas by the scales happens in
the downstream binary writers, which are outside this repository; their
zero-divisor handling is modelled from the spec below.
-/

structure AnimatedBoneData (R : Type) where
  bone : ℕ
  delta_position : List Vec3
  delta_rotation : List R

/-- The position-accumulator update for one delta at one bone
(`if value > current` over the three axes is the axis-wise max of
absolute values). -/
def upd_pos (scales : List (Vec3 × Vec3)) (bone : ℕ) (p : Vec3) :
    List (Vec3 × Vec3) :=
  match scales.get? bone with
  | some (sp, sr) =>
      scales.set bone (⟨max sp.x |p.x|, max sp.y |p.y|, max sp.z |p.z|⟩, sr)
  | none => scales

/-- The rotation-accumulator update for one delta rotation's Euler
triple `(roll, pitch, yaw)`. -/
def upd_rot (scales : List (Vec3 × Vec3)) (bone : ℕ) (e : ℚ × ℚ × ℚ) :
    List (Vec3 × Vec3) :=
  match scales.get? bone with
  | some (sp, sr) =>
      scales.set bone (sp, ⟨max sr.x |e.1|, max sr.y |e.2.1|, max sr.z |e.2.2|⟩)
  | none => scales

/-- The scan of one `AnimatedBoneData` (one bone of one section):
positions first, then rotations, exactly as the two loops in the code. -/
def scan_bone_data {R : Type} (toEuler : R → ℚ × ℚ × ℚ)
    (scales : List (Vec3 × Vec3)) (abd : AnimatedBoneData R) :
    List (Vec3 × Vec3) :=
  let s1 := abd.delta_position.foldl (fun sc p => upd_pos sc abd.bone p) scales
  abd.delta_rotation.foldl (fun sc r => upd_rot sc abd.bone (toEuler r)) s1

/-- The full scan over every processed animation's sections, starting
from `vec![(Vector3::default(), Vector3::default()); bone_count]`. -/
def scan_animations {R : Type} (toEuler : R → ℚ × ℚ × ℚ)
    (anims : List (List (List (AnimatedBoneData R)))) (bone_count : ℕ) :
    List (Vec3 × Vec3) :=
  anims.foldl
    (fun sc sections =>
      sections.foldl
        (fun sc sec => sec.foldl (scan_bone_data toEuler) sc) sc)
    (List.replicate bone_count (Vec3.zero, Vec3.zero))

/-- The final division of every accumulator component by `i16::MAX`. -/
def animation_scales {R : Type} (toEuler : R → ℚ × ℚ × ℚ)
    (anims : List (List (List (AnimatedBoneData R)))) (bone_count : ℕ) :
    List (Vec3 × Vec3) :=
  (scan_animations toEuler anims bone_count).map
    (fun s =>
      (⟨s.1.x / 32767, s.1.y / 32767, s.1.z / 32767⟩,
       ⟨s.2.x / 32767, s.2.y / 32767, s.2.z / 32767⟩))

/-- Modelled from the spec: the downstream binary writers (outside this
repository) divide every delta by the per-bone per-axis scale,
replacing a zero scale by 1
("Division by a zero scale is replaced by 1"). -/
def scale_divisor (s : ℚ) : ℚ := if s = 0 then 1 else s

/-- The per-bone maximum of `|proj delta_position|` over a list of
section entries. -/
def max_abs_pos {R : Type} (proj : Vec3 → ℚ)
    (entries : List (AnimatedBoneData R)) : ℚ :=
  entries.foldl
    (fun m e => e.delta_position.foldl (fun m p => max m |proj p|) m) 0

/-- The per-bone maximum of `|proj (toEuler delta_rotation)|`. -/
def max_abs_rot {R : Type} (toEuler : R → ℚ × ℚ × ℚ) (proj : ℚ × ℚ × ℚ → ℚ)
    (entries : List (AnimatedBoneData R)) : ℚ :=
  entries.foldl
    (fun m e => e.delta_rotation.foldl (fun m r => max m |proj (toEuler r)|) m) 0

/-- The accumulator-pair effect of one position delta. -/
def pos_upd_pair (c : Vec3 × Vec3) (p : Vec3) : Vec3 × Vec3 :=
  (⟨max c.1.x |p.x|, max c.1.y |p.y|, max c.1.z |p.z|⟩, c.2)

/-- The accumulator-pair effect of one rotation delta's Euler triple. -/
def rot_upd_pair (c : Vec3 × Vec3) (e : ℚ × ℚ × ℚ) : Vec3 × Vec3 :=
  (c.1, ⟨max c.2.x |e.1|, max c.2.y |e.2.1|, max c.2.z |e.2.2|⟩)

/-- The accumulated effect of one section entry on its own bone's pair. -/
def bone_apply {R : Type} (toEuler : R → ℚ × ℚ × ℚ) (abd : AnimatedBoneData R)
    (c : Vec3 × Vec3) : Vec3 × Vec3 :=
  abd.delta_rotation.foldl (fun c r => rot_upd_pair c (toEuler r))
    (abd.delta_position.foldl pos_upd_pair c)

theorem getD_set_self {α : Type} (l : List α) (i : ℕ) (a d : α)
    (h : i < l.length) : (l.set i a).getD i d = a := by
  induction l generalizing i with
  | nil => simp at h
  | cons hd tl ih =>
      cases i with
      | zero => rfl
      | succ j =>
          have hj : j < tl.length := by simpa using h
          simpa [List.set, List.getD] using ih j hj

theorem getD_set_ne {α : Type} (l : List α) (i j : ℕ) (a d : α)
    (h : i ≠ j) : (l.set i a).getD j d = l.getD j d := by
  induction l generalizing i j with
  | nil => rfl
  | cons hd tl ih =>
      cases i with
      | zero =>
          cases j with
          | zero => exact absurd rfl h
          | succ k => rfl
      | succ i' =>
          cases j with
          | zero => rfl
          | succ k => simpa [List.set, List.getD] using ih i' k (by omega)

theorem upd_pos_length (sc : List (Vec3 × Vec3)) (b : ℕ) (p : Vec3) :
    (upd_pos sc b p).length = sc.length := by
  unfold upd_pos
  cases hg : sc.get? b with
  | none => rfl
  | some pair =>
      obtain ⟨sp, sr⟩ := pair
      simp

theorem upd_rot_length (sc : List (Vec3 × Vec3)) (b : ℕ) (e : ℚ × ℚ × ℚ) :
    (upd_rot sc b e).length = sc.length := by
  unfold upd_rot
  cases hg : sc.get? b with
  | none => rfl
  | some pair =>
      obtain ⟨sp, sr⟩ := pair
      simp

theorem upd_pos_getD (sc : List (Vec3 × Vec3)) (b b' : ℕ) (p : Vec3)
    (hb' : b' < sc.length) :
    (upd_pos sc b p).getD b' (Vec3.zero, Vec3.zero) =
      if b = b' then pos_upd_pair (sc.getD b' (Vec3.zero, Vec3.zero)) p
      else sc.getD b' (Vec3.zero, Vec3.zero) := by
  unfold upd_pos
  cases hg : sc.get? b with
  | none =>
      have hge : sc.length ≤ b := by
        rw [← List.get?_eq_none]
        exact hg
      rw [if_neg (by omega)]
  | some pair =>
      obtain ⟨sp, sr⟩ := pair
      have hlt : b < sc.length := by
        by_contra hge
        rw [List.get?_eq_none.mpr (by omega)] at hg
        cases hg
      have hgd : sc.getD b (Vec3.zero, Vec3.zero) = (sp, sr) := by
        rw [List.getD_eq_getElem?_getD, ← List.get?_eq_getElem?, hg]
        rfl
      by_cases hbb : b = b'
      · subst hbb
        rw [if_pos rfl, getD_set_self _ _ _ _ hlt, hgd]
        rfl
      · rw [if_neg hbb, getD_set_ne _ _ _ _ _ hbb]

theorem upd_rot_getD (sc : List (Vec3 × Vec3)) (b b' : ℕ) (e : ℚ × ℚ × ℚ)
    (hb' : b' < sc.length) :
    (upd_rot sc b e).getD b' (Vec3.zero, Vec3.zero) =
      if b = b' then rot_upd_pair (sc.getD b' (Vec3.zero, Vec3.zero)) e
      else sc.getD b' (Vec3.zero, Vec3.zero) := by
  unfold upd_rot
  cases hg : sc.get? b with
  | none =>
      have hge : sc.length ≤ b := by
        rw [← List.get?_eq_none]
        exact hg
      rw [if_neg (by omega)]
  | some pair =>
      obtain ⟨sp, sr⟩ := pair
      have hlt : b < sc.length := by
        by_contra hge
        rw [List.get?_eq_none.mpr (by omega)] at hg
        cases hg
      have hgd : sc.getD b (Vec3.zero, Vec3.zero) = (sp, sr) := by
        rw [List.getD_eq_getElem?_getD, ← List.get?_eq_getElem?, hg]
        rfl
      by_cases hbb : b = b'
      · subst hbb
        rw [if_pos rfl, getD_set_self _ _ _ _ hlt, hgd]
        rfl
      · rw [if_neg hbb, getD_set_ne _ _ _ _ _ hbb]

theorem foldl_upd_pos (ps : List Vec3) (sc : List (Vec3 × Vec3)) (b b' : ℕ)
    (hb' : b' < sc.length) :
    ((ps.foldl (fun sc p => upd_pos sc b p) sc).length = sc.length) ∧
    ((ps.foldl (fun sc p => upd_pos sc b p) sc).getD b' (Vec3.zero, Vec3.zero) =
      if b = b' then ps.foldl pos_upd_pair (sc.getD b' (Vec3.zero, Vec3.zero))
      else sc.getD b' (Vec3.zero, Vec3.zero)) := by
  induction ps generalizing sc with
  | nil =>
      refine ⟨rfl, ?_⟩
      by_cases hbb : b = b' <;> simp [hbb]
  | cons p ps ih =>
      have hlen := upd_pos_length sc b p
      have hrec := ih (upd_pos sc b p) (by omega)
      refine ⟨by rw [List.foldl_cons, hrec.1, hlen], ?_⟩
      rw [List.foldl_cons, hrec.2, upd_pos_getD sc b b' p hb']
      by_cases hbb : b = b' <;> simp [hbb]

theorem foldl_upd_rot {R : Type} (toEuler : R → ℚ × ℚ × ℚ) (rs : List R)
    (sc : List (Vec3 × Vec3)) (b b' : ℕ) (hb' : b' < sc.length) :
    ((rs.foldl (fun sc r => upd_rot sc b (toEuler r)) sc).length = sc.length) ∧
    ((rs.foldl (fun sc r => upd_rot sc b (toEuler r)) sc).getD b'
        (Vec3.zero, Vec3.zero) =
      if b = b' then
        rs.foldl (fun c r => rot_upd_pair c (toEuler r))
          (sc.getD b' (Vec3.zero, Vec3.zero))
      else sc.getD b' (Vec3.zero, Vec3.zero)) := by
  induction rs generalizing sc with
  | nil =>
      refine ⟨rfl, ?_⟩
      by_cases hbb : b = b' <;> simp [hbb]
  | cons r rs ih =>
      have hlen := upd_rot_length sc b (toEuler r)
      have hrec := ih (upd_rot sc b (toEuler r)) (by omega)
      refine ⟨by rw [List.foldl_cons, hrec.1, hlen], ?_⟩
      rw [List.foldl_cons, hrec.2, upd_rot_getD sc b b' (toEuler r) hb']
      by_cases hbb : b = b' <;> simp [hbb]

theorem scan_bone_data_props {R : Type} (toEuler : R → ℚ × ℚ × ℚ)
    (abd : AnimatedBoneData R) (sc : List (Vec3 × Vec3)) (b' : ℕ)
    (hb' : b' < sc.length) :
    ((scan_bone_data toEuler sc abd).length = sc.length) ∧
    ((scan_bone_data toEuler sc abd).getD b' (Vec3.zero, Vec3.zero) =
      if abd.bone = b' then
        bone_apply toEuler abd (sc.getD b' (Vec3.zero, Vec3.zero))
      else sc.getD b' (Vec3.zero, Vec3.zero)) := by
  unfold scan_bone_data
  have h1 := foldl_upd_pos abd.delta_position sc abd.bone b' hb'
  have h2 := foldl_upd_rot toEuler abd.delta_rotation
    (abd.delta_position.foldl (fun sc p => upd_pos sc abd.bone p) sc)
    abd.bone b' (by rw [h1.1]; exact hb')
  refine ⟨by rw [h2.1, h1.1], ?_⟩
  rw [h2.2, h1.2]
  unfold bone_apply
  by_cases hbb : abd.bone = b' <;> simp [hbb]

theorem foldl_scan_bone_data {R : Type} (toEuler : R → ℚ × ℚ × ℚ)
    (entries : List (AnimatedBoneData R)) (sc : List (Vec3 × Vec3)) (b' : ℕ)
    (hb' : b' < sc.length) :
    ((entries.foldl (scan_bone_data toEuler) sc).length = sc.length) ∧
    ((entries.foldl (scan_bone_data toEuler) sc).getD b' (Vec3.zero, Vec3.zero) =
      (entries.filter (fun e => e.bone = b')).foldl
        (fun c e => bone_apply toEuler e c)
        (sc.getD b' (Vec3.zero, Vec3.zero))) := by
  induction entries generalizing sc with
  | nil => exact ⟨rfl, rfl⟩
  | cons e rest ih =>
      have hprops := scan_bone_data_props toEuler e sc b' hb'
      have hrec := ih (scan_bone_data toEuler sc e) (by rw [hprops.1]; exact hb')
      refine ⟨by rw [List.foldl_cons, hrec.1, hprops.1], ?_⟩
      rw [List.foldl_cons, hrec.2, hprops.2, List.filter_cons]
      by_cases hbb : e.bone = b'
      · rw [if_pos hbb, if_pos (by simpa using hbb), List.foldl_cons]
      · rw [if_neg hbb, if_neg (by simpa using hbb)]

theorem foldl_pos_proj (f : Vec3 × Vec3 → ℚ) (g : Vec3 → ℚ)
    (hf : ∀ c p, f (pos_upd_pair c p) = max (f c) |g p|) :
    ∀ (ps : List Vec3) (c : Vec3 × Vec3),
      f (ps.foldl pos_upd_pair c) = ps.foldl (fun m p => max m |g p|) (f c) := by
  intro ps
  induction ps with
  | nil => intro c; rfl
  | cons p ps ih => intro c; rw [List.foldl_cons, List.foldl_cons, ih, hf]

theorem foldl_pos_invariant (f : Vec3 × Vec3 → ℚ)
    (hf : ∀ c p, f (pos_upd_pair c p) = f c) :
    ∀ (ps : List Vec3) (c : Vec3 × Vec3), f (ps.foldl pos_upd_pair c) = f c := by
  intro ps
  induction ps with
  | nil => intro c; rfl
  | cons p ps ih => intro c; rw [List.foldl_cons, ih, hf]

theorem foldl_rot_proj {R : Type} (toEuler : R → ℚ × ℚ × ℚ)
    (f : Vec3 × Vec3 → ℚ) (g : ℚ × ℚ × ℚ → ℚ)
    (hf : ∀ c e, f (rot_upd_pair c e) = max (f c) |g e|) :
    ∀ (rs : List R) (c : Vec3 × Vec3),
      f (rs.foldl (fun c r => rot_upd_pair c (toEuler r)) c) =
        rs.foldl (fun m r => max m |g (toEuler r)|) (f c) := by
  intro rs
  induction rs with
  | nil => intro c; rfl
  | cons r rs ih => intro c; rw [List.foldl_cons, List.foldl_cons, ih, hf]

theorem foldl_rot_invariant {R : Type} (toEuler : R → ℚ × ℚ × ℚ)
    (f : Vec3 × Vec3 → ℚ) (hf : ∀ c e, f (rot_upd_pair c e) = f c) :
    ∀ (rs : List R) (c : Vec3 × Vec3),
      f (rs.foldl (fun c r => rot_upd_pair c (toEuler r)) c) = f c := by
  intro rs
  induction rs with
  | nil => intro c; rfl
  | cons r rs ih => intro c; rw [List.foldl_cons, ih, hf]

theorem foldl_bone_apply_pos {R : Type} (toEuler : R → ℚ × ℚ × ℚ)
    (f : Vec3 × Vec3 → ℚ) (g : Vec3 → ℚ)
    (hmax : ∀ c p, f (pos_upd_pair c p) = max (f c) |g p|)
    (hinv : ∀ c e, f (rot_upd_pair c e) = f c) :
    ∀ (entries : List (AnimatedBoneData R)) (c : Vec3 × Vec3),
      f (entries.foldl (fun c e => bone_apply toEuler e c) c) =
        entries.foldl
          (fun m e => e.delta_position.foldl (fun m p => max m |g p|) m) (f c) := by
  intro entries
  induction entries with
  | nil => intro c; rfl
  | cons e rest ih =>
      intro c
      rw [List.foldl_cons, List.foldl_cons, ih]
      congr 1
      unfold bone_apply
      rw [foldl_rot_invariant toEuler f hinv, foldl_pos_proj f g hmax]

theorem foldl_bone_apply_rot {R : Type} (toEuler : R → ℚ × ℚ × ℚ)
    (f : Vec3 × Vec3 → ℚ) (g : ℚ × ℚ × ℚ → ℚ)
    (hmax : ∀ c e, f (rot_upd_pair c e) = max (f c) |g e|)
    (hinv : ∀ c p, f (pos_upd_pair c p) = f c) :
    ∀ (entries : List (AnimatedBoneData R)) (c : Vec3 × Vec3),
      f (entries.foldl (fun c e => bone_apply toEuler e c) c) =
        entries.foldl
          (fun m e => e.delta_rotation.foldl
            (fun m r => max m |g (toEuler r)|) m) (f c) := by
  intro entries
  induction entries with
  | nil => intro c; rfl
  | cons e rest ih =>
      intro c
      rw [List.foldl_cons, List.foldl_cons, ih]
      congr 1
      unfold bone_apply
      rw [foldl_rot_proj toEuler f g hmax, foldl_pos_invariant f hinv]

theorem getD_replicate {α : Type} (n i : ℕ) (a d : α) (h : i < n) :
    (List.replicate n a).getD i d = a := by
  induction n generalizing i with
  | zero => omega
  | succ m ih =>
      cases i with
      | zero => rfl
      | succ j => simpa [List.replicate, List.getD] using ih j (by omega)

theorem getD_map {α β : Type} (l : List α) (f : α → β) (b : ℕ) (d : β)
    (d0 : α) (hb : b < l.length) :
    (l.map f).getD b d = f (l.getD b d0) := by
  induction l generalizing b with
  | nil => simp at hb
  | cons hd tl ih =>
      cases b with
      | zero => rfl
      | succ j => simpa [List.getD] using ih j (by simpa using hb)

/-- C4: the animation scale pair computed by `process_animations` is,
per bone and axis, the maximum absolute delta over all sections of all
processed animations (`|delta_position|` axis-wise; `|Euler of
delta_rotation|` axis-wise) divided by `i16::MAX = 32767`; hence
dividing a maximal delta by its (spec-modelled, zero-replaced-by-1)
scale never exceeds `i16::MAX`, and `scale_divisor 0 = 1`. -/
theorem C4_animation_scales {R : Type} (toEuler : R → ℚ × ℚ × ℚ)
    (anims : List (List (List (AnimatedBoneData R)))) (bone_count : ℕ)
    (hb : ∀ abd ∈ anims.join.join, abd.bone < bone_count) :
    (∀ b, b < bone_count →
      (animation_scales toEuler anims bone_count).getD b (Vec3.zero, Vec3.zero) =
        ((⟨max_abs_pos (fun p => p.x)
              ((anims.join.join).filter (fun e => e.bone = b)) / 32767,
           max_abs_pos (fun p => p.y)
              ((anims.join.join).filter (fun e => e.bone = b)) / 32767,
           max_abs_pos (fun p => p.z)
              ((anims.join.join).filter (fun e => e.bone = b)) / 32767⟩ : Vec3),
         (⟨max_abs_rot toEuler (fun e => e.1)
              ((anims.join.join).filter (fun e => e.bone = b)) / 32767,
           max_abs_rot toEuler (fun e => e.2.1)
              ((anims.join.join).filter (fun e => e.bone = b)) / 32767,
           max_abs_rot toEuler (fun e => e.2.2)
              ((anims.join.join).filter (fun e => e.bone = b)) / 32767⟩ : Vec3))) ∧
    (∀ M : ℚ, 0 ≤ M → M / scale_divisor (M / 32767) ≤ 32767) ∧
    scale_divisor 0 = 1 := by
  refine ⟨?_, ?_, by simp [scale_divisor]⟩
  · intro b hblt
    have hinitlen :
        (List.replicate bone_count ((Vec3.zero, Vec3.zero) : Vec3 × Vec3)).length =
          bone_count := by simp
    have hscan := foldl_scan_bone_data toEuler (anims.join.join)
      (List.replicate bone_count (Vec3.zero, Vec3.zero)) b
      (by rw [hinitlen]; exact hblt)
    have hjoin : scan_animations toEuler anims bone_count =
        (anims.join.join).foldl (scan_bone_data toEuler)
          (List.replicate bone_count (Vec3.zero, Vec3.zero)) := by
      unfold scan_animations
      rw [List.foldl_join, List.foldl_join]
    have hscanlen : (scan_animations toEuler anims bone_count).length =
        bone_count := by
      rw [hjoin, hscan.1, hinitlen]
    unfold animation_scales
    rw [getD_map _ _ b _ (Vec3.zero, Vec3.zero) (by rw [hscanlen]; exact hblt)]
    rw [hjoin, hscan.2, getD_replicate _ _ _ _ hblt]
    set F := ((anims.join.join).filter (fun e => e.bone = b)).foldl
      (fun c e => bone_apply toEuler e c) (Vec3.zero, Vec3.zero) with hF
    have h1x : F.1.x = max_abs_pos (fun p => p.x)
        ((anims.join.join).filter (fun e => e.bone = b)) := by
      rw [hF, foldl_bone_apply_pos toEuler (fun c => c.1.x) (fun p => p.x)
        (fun c p => rfl) (fun c e => rfl)]
      rfl
    have h1y : F.1.y = max_abs_pos (fun p => p.y)
        ((anims.join.join).filter (fun e => e.bone = b)) := by
      rw [hF, foldl_bone_apply_pos toEuler (fun c => c.1.y) (fun p => p.y)
        (fun c p => rfl) (fun c e => rfl)]
      rfl
    have h1z : F.1.z = max_abs_pos (fun p => p.z)
        ((anims.join.join).filter (fun e => e.bone = b)) := by
      rw [hF, foldl_bone_apply_pos toEuler (fun c => c.1.z) (fun p => p.z)
        (fun c p => rfl) (fun c e => rfl)]
      rfl
    have h2x : F.2.x = max_abs_rot toEuler (fun e => e.1)
        ((anims.join.join).filter (fun e => e.bone = b)) := by
      rw [hF, foldl_bone_apply_rot toEuler (fun c => c.2.x) (fun e => e.1)
        (fun c e => rfl) (fun c p => rfl)]
      rfl
    have h2y : F.2.y = max_abs_rot toEuler (fun e => e.2.1)
        ((anims.join.join).filter (fun e => e.bone = b)) := by
      rw [hF, foldl_bone_apply_rot toEuler (fun c => c.2.y) (fun e => e.2.1)
        (fun c e => rfl) (fun c p => rfl)]
      rfl
    have h2z : F.2.z = max_abs_rot toEuler (fun e => e.2.2)
        ((anims.join.join).filter (fun e => e.bone = b)) := by
      rw [hF, foldl_bone_apply_rot toEuler (fun c => c.2.z) (fun e => e.2.2)
        (fun c e => rfl) (fun c p => rfl)]
      rfl
    rw [h1x, h1y, h1z, h2x, h2y, h2z]
  · intro M hM
    unfold scale_divisor
    by_cases h0 : M = 0
    · subst h0
      norm_num
    · rw [if_neg (div_ne_zero h0 (by norm_num))]
      rw [div_div_eq_mul_div, mul_comm, mul_div_assoc, div_self h0, mul_one]

/-- C4 witness: one animation, one section, one bone-0 entry with a
single position delta `(1, 2, 3)` and no rotation deltas, with a
one-bone skeleton. -/
theorem C4_animation_scales_witness :
    (∀ abd ∈ ([[[AnimatedBoneData.mk 0 [⟨1, 2, 3⟩] []]]] :
        List (List (List (AnimatedBoneData ℚ)))).join.join,
      abd.bone < 1) ∧
    (animation_scales (fun r => (r, 0, 0))
        [[[AnimatedBoneData.mk 0 [⟨1, 2, 3⟩] []]]] 1).getD 0
        (Vec3.zero, Vec3.zero) =
      ((⟨max_abs_pos (fun p => p.x)
            ((([[[AnimatedBoneData.mk 0 [⟨1, 2, 3⟩] []]]] :
              List (List (List (AnimatedBoneData ℚ)))).join.join).filter
              (fun e => e.bone = 0)) / 32767,
         max_abs_pos (fun p => p.y)
            ((([[[AnimatedBoneData.mk 0 [⟨1, 2, 3⟩] []]]] :
              List (List (List (AnimatedBoneData ℚ)))).join.join).filter
              (fun e => e.bone = 0)) / 32767,
         max_abs_pos (fun p => p.z)
            ((([[[AnimatedBoneData.mk 0 [⟨1, 2, 3⟩] []]]] :
              List (List (List (AnimatedBoneData ℚ)))).join.join).filter
              (fun e => e.bone = 0)) / 32767⟩ : Vec3),
       (⟨max_abs_rot (fun r => (r, 0, 0)) (fun e => e.1)
            ((([[[AnimatedBoneData.mk 0 [⟨1, 2, 3⟩] []]]] :
              List (List (List (AnimatedBoneData ℚ)))).join.join).filter
              (fun e => e.bone = 0)) / 32767,
         max_abs_rot (fun r => (r, 0, 0)) (fun e => e.2.1)
            ((([[[AnimatedBoneData.mk 0 [⟨1, 2, 3⟩] []]]] :
              List (List (List (AnimatedBoneData ℚ)))).join.join).filter
              (fun e => e.bone = 0)) / 32767,
         max_abs_rot (fun r => (r, 0, 0)) (fun e => e.2.2)
            ((([[[AnimatedBoneData.mk 0 [⟨1, 2, 3⟩] []]]] :
              List (List (List (AnimatedBoneData ℚ)))).join.join).filter
              (fun e => e.bone = 0)) / 32767⟩ : Vec3)) :=
  ⟨by decide,
   (C4_animation_scales (fun r => (r, 0, 0))
     [[[AnimatedBoneData.mk 0 [⟨1, 2, 3⟩] []]]] 1 (by decide)).1 0 (by decide)⟩

/-!
## `process/mesh.rs`: `finalize_triangle_list` (lines 573-712)

Triangles are emitted into the current `Strip`/`StripGroup`/`Mesh`.
Before each triangle, the unique-vertex count of the strip-group
(`mapped_indices`) is checked against `u16::MAX + 1 = 65536` and the
strip's hardware-bone set against `MAX_HARDWARE_BONES_PER_STRIP = 53`
(the latter counted with duplicates over the links of the triangle's
unique vertices); a breach closes strip, strip-group and mesh and
starts fresh ones for the same material.  `usize as u16` / `as u8`
casts wrap (`% 65536` / `% 256`); `f64 as f32` weight narrowing is kept
exact.  The fixed-size arrays `[0.0; 3]` / `[0; 3]` are length-3 lists
written by `List.set` (the loop writes at most three slots because the
remap stage leaves at most three links per vertex).
-/

structure Vec4 where
  x : ℚ
  y : ℚ
  z : ℚ
  w : ℚ
deriving DecidableEq, Repr

def Vec4.zero : Vec4 := ⟨0, 0, 0, 0⟩

/-- A triangle-list vertex as `finalize_triangle_list` reads it. -/
structure FTriangleVertex where
  location : Vec3
  normal : Vec3
  texture_coordinate : Vec2
  links : List TriangleVertexLink

structure HardwareBone where
  hardware_bone : ℤ
  bone_table_bone : ℤ
deriving DecidableEq, Repr

structure MeshVertex where
  bone_count : ℕ
  vertex_index : ℕ
  bones : List ℕ
deriving DecidableEq, Repr

structure PVertex where
  weights : List ℚ
  bones : List ℕ
  bone_count : ℕ
  position : Vec3
  normal : Vec3
  texture_coordinate : Vec2
  tangent : Vec4
deriving DecidableEq, Repr

structure Strip where
  indices_count : ℤ
  indices_offset : ℤ
  vertex_count : ℤ
  vertex_offset : ℤ
  bone_count : ℤ
  hardware_bones : List HardwareBone
deriving DecidableEq, Repr

def Strip.default : Strip := ⟨0, 0, 0, 0, 0, []⟩

structure StripGroup where
  vertices : List MeshVertex
  indices : List ℕ
  strips : List Strip
deriving DecidableEq, Repr

def StripGroup.default : StripGroup := ⟨[], [], []⟩

structure PMesh where
  material : ℤ
  vertex_data : List PVertex
  strip_groups : List StripGroup
deriving DecidableEq, Repr

/-- The working state of the triangle loop. -/
structure FinState where
  processed_meshes : List PMesh
  mesh : PMesh
  strip_group : StripGroup
  strip : Strip
  mapped_indices : List (ℕ × ℕ)
  hardware_bones : List ℕ
  vertex_count : ℕ
  triangle_count : ℕ
deriving DecidableEq, Repr

/-- `IndexMap::get` on `mapped_indices`. -/
def mapped_get (m : List (ℕ × ℕ)) (k : ℕ) : Option ℕ :=
  (m.find? (fun e => e.1 = k)).map (·.2)

/-- `IndexSet::get_index_of` on the hardware-bone set. -/
def idx_of (s : List ℕ) (x : ℕ) : Option ℕ :=
  s.findIdx? (fun b => b = x)

/-- `IndexSet::from_iter(triangle)`: insertion-ordered dedup. -/
def uniqueAux : List ℕ → List ℕ → List ℕ
  | [], _ => []
  | i :: is, seen =>
      if i ∈ seen then uniqueAux is seen else i :: uniqueAux is (seen ++ [i])

def unique_indices (t : ℕ × ℕ × ℕ) : List ℕ :=
  uniqueAux [t.1, t.2.1, t.2.2] []

/-- Close the current strip, strip-group and mesh and start fresh ones
for the same material. -/
def flushState (material_index : ℤ) (st : FinState) : FinState :=
  { st with
    processed_meshes := st.processed_meshes ++
      [{ st.mesh with strip_groups := st.mesh.strip_groups ++
          [{ st.strip_group with strips := st.strip_group.strips ++ [st.strip] }] }],
    mesh := ⟨material_index, [], []⟩,
    strip_group := StripGroup.default,
    strip := Strip.default,
    mapped_indices := [],
    hardware_bones := [] }

/-- The `for (link_index, link) in vertex_data.links.iter().enumerate()`
loop: look each bone up in the strip's hardware-bone set, insert it if
new (recording a `HardwareBone` entry), and write the strip-local slot
into the mesh-vertex's bone array. -/
def add_links : List TriangleVertexLink → ℕ → List ℕ → List ℕ →
    List HardwareBone → List ℕ × List ℕ × List HardwareBone
  | [], _, hw, mvb, hwbs => (hw, mvb, hwbs)
  | l :: ls, k, hw, mvb, hwbs =>
      match idx_of hw l.bone with
      | some i => add_links ls (k + 1) hw (mvb.set k (i % 256)) hwbs
      | none =>
          add_links ls (k + 1) (hw ++ [l.bone]) (mvb.set k (hw.length % 256))
            (hwbs ++ [⟨(hw.length : ℤ), (l.bone : ℤ)⟩])

/-- `[f32; 3]` / `[u8; 3]` array filling: the first `l.length ≤ 3` slots
take the link values, the rest stay zero. -/
def pad3q (l : List ℚ) : List ℚ := l.take 3 ++ List.replicate (3 - l.length) 0

def pad3n (l : List ℕ) : List ℕ := l.take 3 ++ List.replicate (3 - l.length) 0

/-- The body of `for index in triangle`. -/
def process_index (verts : ℕ → FTriangleVertex) (tangents : ℕ → Vec4)
    (st : FinState) (index : ℕ) : FinState :=
  match mapped_get st.mapped_indices index with
  | some mapped_index =>
      { st with
        strip_group := { st.strip_group with
          indices := st.strip_group.indices ++ [mapped_index % 65536] },
        strip := { st.strip with indices_count := st.strip.indices_count + 1 } }
  | none =>
      let vertex_data := verts index
      let weight_count := vertex_data.links.length
      let processed_vertex : PVertex :=
        { weights := pad3q (vertex_data.links.map (fun l => l.weight)),
          bones := pad3n (vertex_data.links.map (fun l => l.bone % 256)),
          bone_count := weight_count % 256,
          position := vertex_data.location,
          normal := vertex_data.normal,
          texture_coordinate := vertex_data.texture_coordinate,
          tangent := tangents index }
      let r := add_links vertex_data.links 0 st.hardware_bones [0, 0, 0]
        st.strip.hardware_bones
      let mesh_vertex : MeshVertex :=
        { vertex_index := st.strip_group.vertices.length % 65536,
          bone_count := weight_count % 256,
          bones := r.2.1 }
      { st with
        hardware_bones := r.1,
        strip := { st.strip with
          bone_count := max st.strip.bone_count (weight_count : ℤ),
          hardware_bones := r.2.2,
          indices_count := st.strip.indices_count + 1,
          vertex_count := st.strip.vertex_count + 1 },
        strip_group := { st.strip_group with
          indices := st.strip_group.indices ++
            [st.strip_group.vertices.length % 65536],
          vertices := st.strip_group.vertices ++ [mesh_vertex] },
        mapped_indices := st.mapped_indices ++
          [(index, st.strip_group.vertices.length)],
        mesh := { st.mesh with
          vertex_data := st.mesh.vertex_data ++ [processed_vertex] },
        vertex_count := st.vertex_count + 1 }

/-- One triangle of the main loop: the two cap checks (each possibly
flushing), then the three indices, then the triangle counter. -/
def process_triangle (material_index : ℤ) (verts : ℕ → FTriangleVertex)
    (tangents : ℕ → Vec4) (st : FinState) (t : ℕ × ℕ × ℕ) : FinState :=
  let uniq := unique_indices t
  let new_indices_count :=
    uniq.countP (fun i => (mapped_get st.mapped_indices i).isNone)
  let st1 :=
    if st.mapped_indices.length + new_indices_count > 65536 then
      flushState material_index st
    else st
  let new_hardware_bone_count :=
    (uniq.flatMap (fun i => (verts i).links.map (fun l => l.bone))).countP
      (fun bone => ¬ st1.hardware_bones.contains bone)
  let st2 :=
    if st1.hardware_bones.length + new_hardware_bone_count > 53 then
      flushState material_index st1
    else st1
  let st3 := [t.1, t.2.1, t.2.2].foldl (process_index verts tangents) st2
  { st3 with triangle_count := st3.triangle_count + 1 }

/-- `finalize_triangle_list`: run the loop from the empty state (the
mesh pre-seeded with the material), then push the final strip,
strip-group and mesh. -/
def finalize_triangle_list (material_index : ℤ)
    (triangles : List (ℕ × ℕ × ℕ)) (verts : ℕ → FTriangleVertex)
    (tangents : ℕ → Vec4) (vertex_count triangle_count : ℕ) :
    List PMesh × ℕ × ℕ :=
  let st0 : FinState :=
    { processed_meshes := [],
      mesh := ⟨material_index, [], []⟩,
      strip_group := StripGroup.default,
      strip := Strip.default,
      mapped_indices := [],
      hardware_bones := [],
      vertex_count := vertex_count,
      triangle_count := triangle_count }
  let stF := triangles.foldl (process_triangle material_index verts tangents) st0
  let stD := flushState material_index stF
  (stD.processed_meshes, stF.vertex_count, stF.triangle_count)

/-- Insertion-ordered set insertion of a whole list
(`IndexSet::insert` iterated). -/
def set_inserts (hw : List ℕ) (bs : List ℕ) : List ℕ :=
  bs.foldl (fun h b => if b ∈ h then h else h ++ [b]) hw

/-- The number of fresh unique-vertex slots a run of `process_index`
creates, given the keys already mapped. -/
def countNew : List ℕ → List ℕ → ℕ
  | [], _ => 0
  | i :: is, keys =>
      if i ∈ keys then countNew is keys else 1 + countNew is (keys ++ [i])

/-- The indices that a run of `process_index` treats as new vertices,
in processing order. -/
def collectIdx : List ℕ → List ℕ → List ℕ
  | [], _ => []
  | i :: is, keys =>
      if i ∈ keys then collectIdx is keys else i :: collectIdx is (keys ++ [i])

theorem idx_of_eq_none (s : List ℕ) (x : ℕ) :
    idx_of s x = none ↔ ¬ x ∈ s := by
  induction s with
  | nil => simp [idx_of]
  | cons hd tl ih =>
      unfold idx_of at ih ⊢
      rw [List.findIdx?_cons]
      by_cases hx : hd = x
      · simp [hx]
      · have : ¬ x = hd := fun h => hx h.symm
        simp [hx, this, ih]

theorem mapped_get_isNone (m : List (ℕ × ℕ)) (k : ℕ) :
    (mapped_get m k).isNone = true ↔ ¬ k ∈ m.map Prod.fst := by
  unfold mapped_get
  rw [Option.isNone_iff_eq_none, Option.map_eq_none', List.find?_eq_none]
  constructor
  · intro h hk
    obtain ⟨e, he, hek⟩ := List.mem_map.mp hk
    exact absurd (by simpa using hek) (by simpa using h e he)
  · intro h e he
    intro hek
    exact h (List.mem_map.mpr ⟨e, he, by simpa using hek⟩)

theorem set_inserts_append (hw : List ℕ) (a b : List ℕ) :
    set_inserts hw (a ++ b) = set_inserts (set_inserts hw a) b := by
  unfold set_inserts
  rw [List.foldl_append]

theorem set_inserts_nodup (bs : List ℕ) :
    ∀ hw : List ℕ, hw.Nodup → (set_inserts hw bs).Nodup := by
  induction bs with
  | nil => intro hw h; exact h
  | cons b bs ih =>
      intro hw h
      unfold set_inserts
      rw [List.foldl_cons]
      by_cases hb : b ∈ hw
      · rw [if_pos hb]
        exact ih hw h
      · rw [if_neg hb]
        refine ih _ ?_
        rw [List.nodup_append]
        exact ⟨h, List.nodup_singleton _, by simpa using hb⟩

theorem set_inserts_length_le (bs : List ℕ) :
    ∀ hw : List ℕ, (set_inserts hw bs).length ≤
      hw.length + bs.countP (fun b => ¬ b ∈ hw) := by
  induction bs with
  | nil => intro hw; simp [set_inserts]
  | cons b bs ih =>
      intro hw
      unfold set_inserts
      rw [List.foldl_cons, List.countP_cons]
      by_cases hb : b ∈ hw
      · rw [if_pos hb, show (decide (¬ b ∈ hw)) = false by simp [hb],
          if_neg Bool.false_ne_true]
        have h1 := ih hw
        unfold set_inserts at h1
        omega
      · rw [if_neg hb, show (decide (¬ b ∈ hw)) = true by simp [hb],
          if_pos rfl]
        have h1 := ih (hw ++ [b])
        have h2 : bs.countP (fun x => ¬ x ∈ hw ++ [b]) ≤
            bs.countP (fun x => ¬ x ∈ hw) := by
          apply List.countP_mono_left
          intro a _ ha
          simp only [decide_eq_true_eq, List.mem_append] at ha ⊢
          intro hmem
          exact ha (Or.inl hmem)
        unfold set_inserts at h1
        simp only [List.length_append, List.length_singleton] at h1
        omega

theorem countNew_le_length (is : List ℕ) :
    ∀ keys, countNew is keys ≤ is.length := by
  induction is with
  | nil => intro keys; simp [countNew]
  | cons i is ih =>
      intro keys
      unfold countNew
      by_cases hk : i ∈ keys
      · rw [if_pos hk]
        have := ih keys
        simp only [List.length_cons]
        omega
      · rw [if_neg hk]
        have := ih (keys ++ [i])
        simp only [List.length_cons]
        omega

theorem collectIdx_length_le (is : List ℕ) :
    ∀ keys, (collectIdx is keys).length ≤ is.length := by
  induction is with
  | nil => intro keys; simp [collectIdx]
  | cons i is ih =>
      intro keys
      unfold collectIdx
      by_cases hk : i ∈ keys
      · rw [if_pos hk]
        have := ih keys
        simp only [List.length_cons]
        omega
      · rw [if_neg hk]
        have := ih (keys ++ [i])
        simp only [List.length_cons, List.length_cons]
        omega

theorem uniqueAux_not_mem_seen (is : List ℕ) :
    ∀ seen x, x ∈ uniqueAux is seen → ¬ x ∈ seen := by
  induction is with
  | nil => intro seen x hx; simp [uniqueAux] at hx
  | cons i is ih =>
      intro seen x hx
      unfold uniqueAux at hx
      by_cases hi : i ∈ seen
      · rw [if_pos hi] at hx
        exact ih seen x hx
      · rw [if_neg hi] at hx
        rcases List.mem_cons.mp hx with hx' | hx'
        · subst hx'
          exact hi
        · intro hxs
          exact ih (seen ++ [i]) x hx' (by simp [hxs])

theorem countNew_eq_uniqueAux (is : List ℕ) :
    ∀ (keys extra : List ℕ), (∀ x ∈ extra, x ∈ keys) →
      countNew is keys = (uniqueAux is extra).countP (fun i => ¬ i ∈ keys) := by
  induction is with
  | nil => intro keys extra _; rfl
  | cons i is ih =>
      intro keys extra hsub
      unfold countNew uniqueAux
      by_cases hik : i ∈ keys
      · rw [if_pos hik]
        by_cases hie : i ∈ extra
        · rw [if_pos hie]
          exact ih keys extra hsub
        · rw [if_neg hie, List.countP_cons]
          rw [show (decide (¬ i ∈ keys)) = false by simp [hik],
            if_neg Bool.false_ne_true]
          rw [ih keys (extra ++ [i]) ?_]
          · omega
          · intro x hx
            rcases List.mem_append.mp hx with hx' | hx'
            · exact hsub x hx'
            · rw [show x = i by simpa using hx']
              exact hik
      · have hie : ¬ i ∈ extra := fun hie => hik (hsub i hie)
        rw [if_neg hik, if_neg hie, List.countP_cons]
        rw [show (decide (¬ i ∈ keys)) = true by simp [hik], if_pos rfl]
        have hcongr : (uniqueAux is (extra ++ [i])).countP
            (fun x => ¬ x ∈ keys ++ [i]) =
            (uniqueAux is (extra ++ [i])).countP (fun x => ¬ x ∈ keys) := by
          apply List.countP_congr
          intro x hx
          have hxi : ¬ x = i := by
            intro hxi
            exact uniqueAux_not_mem_seen is (extra ++ [i]) x hx
              (by simp [hxi])
          simp [hxi]
        rw [← hcongr, ← ih (keys ++ [i]) (extra ++ [i]) ?_]
        · omega
        · intro x hx
          rcases List.mem_append.mp hx with hx' | hx'
          · exact List.mem_append.mpr (Or.inl (hsub x hx'))
          · exact List.mem_append.mpr (Or.inr hx')

theorem collectIdx_sublist (is : List ℕ) :
    ∀ (keys extra : List ℕ), (∀ x ∈ extra, x ∈ keys) →
      List.Sublist (collectIdx is keys) (uniqueAux is extra) := by
  induction is with
  | nil => intro keys extra _; exact List.Sublist.refl _
  | cons i is ih =>
      intro keys extra hsub
      unfold collectIdx uniqueAux
      by_cases hik : i ∈ keys
      · rw [if_pos hik]
        by_cases hie : i ∈ extra
        · rw [if_pos hie]
          exact ih keys extra hsub
        · rw [if_neg hie]
          exact (ih keys (extra ++ [i]) (fun x hx => by
            rcases List.mem_append.mp hx with hx' | hx'
            · exact hsub x hx'
            · rw [show x = i by simpa using hx']
              exact hik)).cons i
      · have hie : ¬ i ∈ extra := fun hie => hik (hsub i hie)
        rw [if_neg hik, if_neg hie]
        exact (ih (keys ++ [i]) (extra ++ [i]) (fun x hx => by
          rcases List.mem_append.mp hx with hx' | hx'
          · exact List.mem_append.mpr (Or.inl (hsub x hx'))
          · exact List.mem_append.mpr (Or.inr hx'))).cons₂ i

theorem sublist_flatMap {α β : Type} (f : α → List β) {l₁ l₂ : List α}
    (h : List.Sublist l₁ l₂) :
    List.Sublist (l₁.flatMap f) (l₂.flatMap f) := by
  induction h with
  | slnil => exact List.Sublist.refl _
  | cons x _ ih =>
      rw [List.flatMap_cons]
      exact ih.trans (List.sublist_append_right _ _)
  | cons₂ x _ ih =>
      rw [List.flatMap_cons, List.flatMap_cons]
      exact List.Sublist.append (List.Sublist.refl _) ih

theorem length_flatMap_le {α β : Type} (f : α → List β) (l : List α)
    (h : ∀ x, (f x).length ≤ 3) : (l.flatMap f).length ≤ 3 * l.length := by
  induction l with
  | nil => simp
  | cons x xs ih =>
      rw [List.flatMap_cons, List.length_append, List.length_cons]
      have := h x
      omega

theorem set_inserts_cons (hw : List ℕ) (b : ℕ) (bs : List ℕ) :
    set_inserts hw (b :: bs) =
      set_inserts (if b ∈ hw then hw else hw ++ [b]) bs := rfl

theorem add_links_hw (ls : List TriangleVertexLink) :
    ∀ (k : ℕ) (hw mvb : List ℕ) (hwbs : List HardwareBone),
      (add_links ls k hw mvb hwbs).1 =
        set_inserts hw (ls.map (fun l => l.bone)) := by
  induction ls with
  | nil => intro k hw mvb hwbs; rfl
  | cons l ls ih =>
      intro k hw mvb hwbs
      unfold add_links
      cases hidx : idx_of hw l.bone with
      | some i =>
          have hmem : l.bone ∈ hw := by
            by_contra hmem
            rw [(idx_of_eq_none hw l.bone).mpr hmem] at hidx
            exact Option.noConfusion hidx
          rw [List.map_cons, set_inserts_cons, if_pos hmem]
          exact ih _ _ _ _
      | none =>
          have hmem : ¬ l.bone ∈ hw := (idx_of_eq_none hw l.bone).mp hidx
          rw [List.map_cons, set_inserts_cons, if_neg hmem]
          exact ih _ _ _ _

theorem add_links_hwbs (ls : List TriangleVertexLink) :
    ∀ (k : ℕ) (hw mvb : List ℕ) (hwbs : List HardwareBone),
      hwbs.map (fun h => h.bone_table_bone) = hw.map (fun b : ℕ => (b : ℤ)) →
      (add_links ls k hw mvb hwbs).2.2.map (fun h => h.bone_table_bone) =
        (add_links ls k hw mvb hwbs).1.map (fun b : ℕ => (b : ℤ)) := by
  induction ls with
  | nil => intro k hw mvb hwbs h; exact h
  | cons l ls ih =>
      intro k hw mvb hwbs h
      unfold add_links
      cases hidx : idx_of hw l.bone with
      | some i => exact ih _ _ _ _ h
      | none =>
          refine ih _ _ _ _ ?_
          rw [List.map_append, List.map_append, h]
          rfl

theorem process_index_mapped (verts : ℕ → FTriangleVertex)
    (tangents : ℕ → Vec4) (st : FinState) (index : ℕ)
    (h : index ∈ st.mapped_indices.map Prod.fst) :
    (process_index verts tangents st index).processed_meshes =
      st.processed_meshes ∧
    (process_index verts tangents st index).mesh.strip_groups =
      st.mesh.strip_groups ∧
    (process_index verts tangents st index).mesh.material =
      st.mesh.material ∧
    (process_index verts tangents st index).strip_group.strips =
      st.strip_group.strips ∧
    (process_index verts tangents st index).strip.hardware_bones =
      st.strip.hardware_bones ∧
    (process_index verts tangents st index).hardware_bones =
      st.hardware_bones ∧
    (process_index verts tangents st index).mapped_indices =
      st.mapped_indices ∧
    (process_index verts tangents st index).strip_group.vertices =
      st.strip_group.vertices := by
  cases hmg : mapped_get st.mapped_indices index with
  | none =>
      exact absurd h
        ((mapped_get_isNone st.mapped_indices index).mp (by rw [hmg]; rfl))
  | some v =>
      unfold process_index
      rw [hmg]
      exact ⟨rfl, rfl, rfl, rfl, rfl, rfl, rfl, rfl⟩

theorem process_index_new (verts : ℕ → FTriangleVertex)
    (tangents : ℕ → Vec4) (st : FinState) (index : ℕ)
    (h : ¬ index ∈ st.mapped_indices.map Prod.fst)
    (hhw : st.strip.hardware_bones.map (fun x => x.bone_table_bone) =
      st.hardware_bones.map (fun b : ℕ => (b : ℤ))) :
    (process_index verts tangents st index).processed_meshes =
      st.processed_meshes ∧
    (process_index verts tangents st index).mesh.strip_groups =
      st.mesh.strip_groups ∧
    (process_index verts tangents st index).mesh.material =
      st.mesh.material ∧
    (process_index verts tangents st index).strip_group.strips =
      st.strip_group.strips ∧
    (process_index verts tangents st index).hardware_bones =
      set_inserts st.hardware_bones
        ((verts index).links.map (fun l => l.bone)) ∧
    (process_index verts tangents st index).strip.hardware_bones.map
        (fun x => x.bone_table_bone) =
      (process_index verts tangents st index).hardware_bones.map
        (fun b : ℕ => (b : ℤ)) ∧
    (process_index verts tangents st index).mapped_indices =
      st.mapped_indices ++ [(index, st.strip_group.vertices.length)] ∧
    (process_index verts tangents st index).strip_group.vertices.length =
      st.strip_group.vertices.length + 1 := by
  have hmg : mapped_get st.mapped_indices index = none :=
    Option.isNone_iff_eq_none.mp ((mapped_get_isNone st.mapped_indices index).mpr h)
  unfold process_index
  rw [hmg]
  dsimp only
  refine ⟨rfl, rfl, rfl, rfl, add_links_hw _ _ _ _ _,
    add_links_hwbs _ _ _ _ _ hhw, rfl, by simp⟩

theorem foldl_process_index (verts : ℕ → FTriangleVertex)
    (tangents : ℕ → Vec4) (is : List ℕ) :
    ∀ st : FinState,
      st.strip.hardware_bones.map (fun x => x.bone_table_bone) =
        st.hardware_bones.map (fun b : ℕ => (b : ℤ)) →
      st.strip_group.vertices.length = st.mapped_indices.length →
      ((is.foldl (process_index verts tangents) st).processed_meshes =
          st.processed_meshes ∧
        (is.foldl (process_index verts tangents) st).mesh.strip_groups =
          st.mesh.strip_groups ∧
        (is.foldl (process_index verts tangents) st).mesh.material =
          st.mesh.material ∧
        (is.foldl (process_index verts tangents) st).strip_group.strips =
          st.strip_group.strips) ∧
      (is.foldl (process_index verts tangents) st).strip.hardware_bones.map
          (fun x => x.bone_table_bone) =
        (is.foldl (process_index verts tangents) st).hardware_bones.map
          (fun b : ℕ => (b : ℤ)) ∧
      (is.foldl (process_index verts tangents) st).hardware_bones =
        set_inserts st.hardware_bones
          ((collectIdx is (st.mapped_indices.map Prod.fst)).flatMap
            (fun i => (verts i).links.map (fun l => l.bone))) ∧
      (is.foldl (process_index verts tangents) st).mapped_indices.length =
        st.mapped_indices.length +
          countNew is (st.mapped_indices.map Prod.fst) ∧
      (is.foldl (process_index verts tangents) st).strip_group.vertices.length =
        (is.foldl (process_index verts tangents) st).mapped_indices.length := by
  induction is with
  | nil =>
      intro st hhw hlen
      exact ⟨⟨rfl, rfl, rfl, rfl⟩, hhw, rfl, rfl, hlen⟩
  | cons i is ih =>
      intro st hhw hlen
      rw [List.foldl_cons]
      by_cases hik : i ∈ st.mapped_indices.map Prod.fst
      · obtain ⟨hp, hsg, hmat, hstr, hshw, hhw', hmap, hvert⟩ :=
          process_index_mapped verts tangents st i hik
        have hhw1 : (process_index verts tangents st i).strip.hardware_bones.map
            (fun x => x.bone_table_bone) =
            (process_index verts tangents st i).hardware_bones.map
              (fun b : ℕ => (b : ℤ)) := by
          rw [hshw, hhw']; exact hhw
        have hlen1 :
            (process_index verts tangents st i).strip_group.vertices.length =
            (process_index verts tangents st i).mapped_indices.length := by
          rw [hvert, hmap]; exact hlen
        obtain ⟨⟨ihp, ihsg, ihmat, ihstr⟩, ihshw, ihhw, ihlen, ihvl⟩ :=
          ih (process_index verts tangents st i) hhw1 hlen1
        refine ⟨⟨by rw [ihp, hp], by rw [ihsg, hsg], by rw [ihmat, hmat],
          by rw [ihstr, hstr]⟩, ihshw, ?_, ?_, ihvl⟩
        · rw [ihhw, hhw', hmap]
          simp only [collectIdx]
          rw [if_pos hik]
        · rw [ihlen, hmap]
          simp only [countNew]
          rw [if_pos hik]
      · obtain ⟨hp, hsg, hmat, hstr, hhw', hshw, hmap, hvert⟩ :=
          process_index_new verts tangents st i hik hhw
        have hlen1 :
            (process_index verts tangents st i).strip_group.vertices.length =
            (process_index verts tangents st i).mapped_indices.length := by
          rw [hvert, hmap]; simp [hlen]
        have hkeys1 : (process_index verts tangents st i).mapped_indices.map
            Prod.fst = st.mapped_indices.map Prod.fst ++ [i] := by
          rw [hmap]; simp
        obtain ⟨⟨ihp, ihsg, ihmat, ihstr⟩, ihshw, ihhw, ihlen, ihvl⟩ :=
          ih (process_index verts tangents st i) hshw hlen1
        refine ⟨⟨by rw [ihp, hp], by rw [ihsg, hsg], by rw [ihmat, hmat],
          by rw [ihstr, hstr]⟩, ihshw, ?_, ?_, ihvl⟩
        · rw [ihhw, hhw', hkeys1]
          simp only [collectIdx]
          rw [if_neg hik, List.flatMap_cons, set_inserts_append]
        · rw [ihlen, hkeys1, hmap]
          simp only [countNew]
          rw [if_neg hik]
          simp only [List.length_append, List.length_singleton]
          omega

/-- A strip respects the hardware-bone cap: the recorded bone-table
bones are pairwise distinct and at most 53 of them. -/
def stripOk (s : Strip) : Prop :=
  (s.hardware_bones.map (fun x => x.bone_table_bone)).Nodup ∧
  s.hardware_bones.length ≤ 53

/-- A processed mesh respects both caps and keeps its material. -/
def meshOk (material_index : ℤ) (m : PMesh) : Prop :=
  m.material = material_index ∧
  ∀ sg ∈ m.strip_groups, sg.vertices.length ≤ 65536 ∧ ∀ s ∈ sg.strips, stripOk s

/-- The loop invariant of `finalize_triangle_list`'s triangle loop. -/
def finInv (material_index : ℤ) (st : FinState) : Prop :=
  (∀ m ∈ st.processed_meshes, meshOk material_index m) ∧
  st.mesh.strip_groups = [] ∧
  st.strip_group.strips = [] ∧
  st.mesh.material = material_index ∧
  st.strip.hardware_bones.map (fun x => x.bone_table_bone) =
    st.hardware_bones.map (fun b : ℕ => (b : ℤ)) ∧
  st.strip_group.vertices.length = st.mapped_indices.length ∧
  st.hardware_bones.Nodup ∧
  st.hardware_bones.length ≤ 53 ∧
  st.mapped_indices.length ≤ 65536

theorem flushState_inv (mi : ℤ) (st : FinState) (h : finInv mi st) :
    finInv mi (flushState mi st) := by
  obtain ⟨hpm, hmsg, hsgs, hmat, hhw, hlen, hnd, hhw53, hm65⟩ := h
  refine ⟨?_, rfl, rfl, rfl, by simp [flushState, Strip.default],
    by simp [flushState, Strip.default, StripGroup.default],
    List.nodup_nil, by simp [flushState], by simp [flushState]⟩
  intro m hm
  rw [flushState] at hm
  simp only [List.mem_append, List.mem_singleton] at hm
  rcases hm with hm | hm
  · exact hpm m hm
  · subst hm
    refine ⟨hmat, ?_⟩
    intro sg hsg
    rw [hmsg] at hsg
    simp only [List.nil_append, List.mem_singleton] at hsg
    subst hsg
    refine ⟨?_, ?_⟩
    · show st.strip_group.vertices.length ≤ 65536
      omega
    intro s hs
    rw [hsgs] at hs
    simp only [List.nil_append, List.mem_singleton] at hs
    subst hs
    constructor
    · rw [hhw]
      exact hnd.map Nat.cast_injective
    · have : st.strip.hardware_bones.length = st.hardware_bones.length := by
        have := congrArg List.length hhw
        simpa using this
      omega

/-- The state after the unique-vertex cap check of `process_triangle`. -/
def ptSt1 (material_index : ℤ) (st : FinState) (t : ℕ × ℕ × ℕ) : FinState :=
  if st.mapped_indices.length + (unique_indices t).countP
      (fun i => (mapped_get st.mapped_indices i).isNone) > 65536 then
    flushState material_index st
  else st

/-- The state after the hardware-bone cap check of `process_triangle`. -/
def ptSt2 (material_index : ℤ) (verts : ℕ → FTriangleVertex) (st : FinState)
    (t : ℕ × ℕ × ℕ) : FinState :=
  if (ptSt1 material_index st t).hardware_bones.length +
      ((unique_indices t).flatMap
        (fun i => (verts i).links.map (fun l => l.bone))).countP
        (fun bone => ¬ (ptSt1 material_index st t).hardware_bones.contains bone) >
      53 then
    flushState material_index (ptSt1 material_index st t)
  else ptSt1 material_index st t

/-- `process_triangle` after both cap checks, before the counter bump. -/
def ptAux (material_index : ℤ) (verts : ℕ → FTriangleVertex)
    (tangents : ℕ → Vec4) (st : FinState) (t : ℕ × ℕ × ℕ) : FinState :=
  [t.1, t.2.1, t.2.2].foldl (process_index verts tangents)
    (ptSt2 material_index verts st t)

theorem process_triangle_eq (material_index : ℤ)
    (verts : ℕ → FTriangleVertex) (tangents : ℕ → Vec4) (st : FinState)
    (t : ℕ × ℕ × ℕ) :
    process_triangle material_index verts tangents st t =
      { ptAux material_index verts tangents st t with
        triangle_count :=
          (ptAux material_index verts tangents st t).triangle_count + 1 } := rfl

theorem ite_flush_inv (mi : ℤ) (c : Prop) [Decidable c] (st : FinState)
    (h : finInv mi st) : finInv mi (if c then flushState mi st else st) := by
  split
  · exact flushState_inv mi st h
  · exact h

theorem finInv_triangle_count (mi : ℤ) (st : FinState) (h : finInv mi st)
    (n : ℕ) : finInv mi { st with triangle_count := n } := h

theorem fold_three_inv (mi : ℤ) (verts : ℕ → FTriangleVertex)
    (tangents : ℕ → Vec4) (st2 : FinState) (is : List ℕ)
    (h2 : finInv mi st2)
    (hA : st2.mapped_indices.length +
      countNew is (st2.mapped_indices.map Prod.fst) ≤ 65536)
    (hB : (set_inserts st2.hardware_bones
      ((collectIdx is (st2.mapped_indices.map Prod.fst)).flatMap
        (fun i => (verts i).links.map (fun l => l.bone)))).length ≤ 53) :
    finInv mi (is.foldl (process_index verts tangents) st2) := by
  obtain ⟨hpm, hmsg, hsgs, hmat, hhw, hlen, hnd, hhw53, hm65⟩ := h2
  obtain ⟨⟨fp, fsg, fmat, fstr⟩, fshw, fhw, flen, fvl⟩ :=
    foldl_process_index verts tangents is st2 hhw hlen
  refine ⟨?_, by rw [fsg]; exact hmsg, by rw [fstr]; exact hsgs,
    by rw [fmat]; exact hmat, fshw, fvl, ?_, ?_, ?_⟩
  · intro m hm
    rw [fp] at hm
    exact hpm m hm
  · rw [fhw]
    exact set_inserts_nodup _ _ hnd
  · rw [fhw]
    exact hB
  · rw [flen]
    exact hA

theorem countNew_eq_isNone_count (st : FinState) (t : ℕ × ℕ × ℕ) :
    countNew [t.1, t.2.1, t.2.2] (st.mapped_indices.map Prod.fst) =
      (unique_indices t).countP
        (fun i => (mapped_get st.mapped_indices i).isNone) := by
  rw [countNew_eq_uniqueAux _ _ [] (by intro x hx; simp at hx)]
  apply List.countP_congr
  intro x _
  have hiff := mapped_get_isNone st.mapped_indices x
  by_cases hxk : x ∈ st.mapped_indices.map Prod.fst
  · cases hmm : (mapped_get st.mapped_indices x).isNone with
    | true => exact absurd hxk (hiff.mp hmm)
    | false => simp [hxk]
  · rw [hiff.mpr hxk]
    simp [hxk]

theorem process_triangle_inv (mi : ℤ) (verts : ℕ → FTriangleVertex)
    (tangents : ℕ → Vec4)
    (hlinks : ∀ i, (verts i).links.length ≤ 3)
    (st : FinState) (t : ℕ × ℕ × ℕ) (h : finInv mi st) :
    finInv mi (process_triangle mi verts tangents st t) := by
  have h1 : finInv mi (ptSt1 mi st t) := by
    unfold ptSt1
    exact ite_flush_inv mi _ st h
  have h2 : finInv mi (ptSt2 mi verts st t) := by
    unfold ptSt2
    exact ite_flush_inv mi _ _ h1
  have hlinks3 : ∀ x, ((verts x).links.map (fun l => l.bone)).length ≤ 3 := by
    intro x
    rw [List.length_map]
    exact hlinks x
  have hA : (ptSt2 mi verts st t).mapped_indices.length +
      countNew [t.1, t.2.1, t.2.2]
        ((ptSt2 mi verts st t).mapped_indices.map Prod.fst) ≤ 65536 := by
    have hsmall : ∀ st' : FinState, st'.mapped_indices = [] →
        st'.mapped_indices.length +
          countNew [t.1, t.2.1, t.2.2] (st'.mapped_indices.map Prod.fst) ≤
          65536 := by
      intro st' hst'
      rw [hst']
      simp only [List.map_nil, List.length_nil]
      have hcnl := countNew_le_length [t.1, t.2.1, t.2.2] ([] : List ℕ)
      simp only [List.length_cons, List.length_nil] at hcnl
      omega
    unfold ptSt2
    split
    · exact hsmall _ rfl
    · unfold ptSt1
      split
      · exact hsmall _ rfl
      · rw [countNew_eq_isNone_count st t]
        omega
  have hB : (set_inserts (ptSt2 mi verts st t).hardware_bones
      ((collectIdx [t.1, t.2.1, t.2.2]
        ((ptSt2 mi verts st t).mapped_indices.map Prod.fst)).flatMap
        (fun i => (verts i).links.map (fun l => l.bone)))).length ≤ 53 := by
    have hgen : ∀ (hw keys : List ℕ),
        (set_inserts hw ((collectIdx [t.1, t.2.1, t.2.2] keys).flatMap
          (fun i => (verts i).links.map (fun l => l.bone)))).length ≤
        hw.length + ((collectIdx [t.1, t.2.1, t.2.2] keys).flatMap
          (fun i => (verts i).links.map (fun l => l.bone))).countP
            (fun b => ¬ b ∈ hw) := by
      intro hw keys
      exact set_inserts_length_le _ hw
    have hflat : ∀ keys : List ℕ,
        ((collectIdx [t.1, t.2.1, t.2.2] keys).flatMap
          (fun i => (verts i).links.map (fun l => l.bone))).length ≤ 9 := by
      intro keys
      have h1' := length_flatMap_le
        (fun i => (verts i).links.map (fun l => l.bone))
        (collectIdx [t.1, t.2.1, t.2.2] keys) hlinks3
      have h2' := collectIdx_length_le [t.1, t.2.1, t.2.2] keys
      simp only [List.length_cons, List.length_nil] at h2'
      omega
    unfold ptSt2
    split
    · -- the hardware-bone flush fired: the strip restarts empty
      have hflushhw : (flushState mi (ptSt1 mi st t)).hardware_bones = [] := rfl
      have hflushm :
          (flushState mi (ptSt1 mi st t)).mapped_indices = [] := rfl
      rw [hflushhw, hflushm]
      simp only [List.map_nil]
      have hg := hgen [] []
      have hf := hflat []
      have hcl : ((collectIdx [t.1, t.2.1, t.2.2] ([] : List ℕ)).flatMap
          (fun i => (verts i).links.map (fun l => l.bone))).countP
            (fun b => ¬ b ∈ ([] : List ℕ)) ≤
          ((collectIdx [t.1, t.2.1, t.2.2] ([] : List ℕ)).flatMap
            (fun i => (verts i).links.map (fun l => l.bone))).length :=
        List.countP_le_length _
      simp only [List.length_nil] at hg
      omega
    · -- no flush: the checked count bounds the growth
      rename_i hc2
      have hc2le := Nat.le_of_not_lt hc2
      have hsub : List.Sublist
          (collectIdx [t.1, t.2.1, t.2.2]
            ((ptSt1 mi st t).mapped_indices.map Prod.fst))
          (unique_indices t) :=
        collectIdx_sublist [t.1, t.2.1, t.2.2] _ []
          (by intro x hx; simp at hx)
      have hsubf := sublist_flatMap
        (fun i => (verts i).links.map (fun l => l.bone)) hsub
      have hcount1 := hsubf.countP_le
        (fun b => decide (¬ b ∈ (ptSt1 mi st t).hardware_bones))
      have hcount2 : ((unique_indices t).flatMap
          (fun i => (verts i).links.map (fun l => l.bone))).countP
            (fun b => ¬ b ∈ (ptSt1 mi st t).hardware_bones) =
          ((unique_indices t).flatMap
          (fun i => (verts i).links.map (fun l => l.bone))).countP
            (fun bone => ¬ (ptSt1 mi st t).hardware_bones.contains bone) := by
        apply List.countP_congr
        intro x _
        simp
      have hgen' := hgen (ptSt1 mi st t).hardware_bones
        ((ptSt1 mi st t).mapped_indices.map Prod.fst)
      omega
  rw [process_triangle_eq]
  refine finInv_triangle_count mi _ ?_ _
  unfold ptAux
  exact fold_three_inv mi verts tangents _ _ h2 hA hB

theorem foldl_process_triangle_inv (mi : ℤ) (verts : ℕ → FTriangleVertex)
    (tangents : ℕ → Vec4)
    (hlinks : ∀ i, (verts i).links.length ≤ 3)
    (triangles : List (ℕ × ℕ × ℕ)) :
    ∀ st : FinState, finInv mi st →
      finInv mi (triangles.foldl (process_triangle mi verts tangents) st) := by
  induction triangles with
  | nil => intro st h; exact h
  | cons t ts ih =>
      intro st h
      rw [List.foldl_cons]
      exact ih _ (process_triangle_inv mi verts tangents hlinks st t h)

/-- Example mesh: vertices 0-52 use 53 distinct bones, vertex 54 (in the
18th triangle) introduces a 54th distinct bone, all others reuse bone 0. -/
def C2exBone (i : ℕ) : ℕ :=
  if i < 53 then i else if i = 54 then 53 else 0

def C2exVerts (i : ℕ) : FTriangleVertex :=
  ⟨Vec3.zero, Vec3.zero, ⟨0, 0⟩, [⟨C2exBone i, 1⟩]⟩

def C2exTriangles : List (ℕ × ℕ × ℕ) :=
  (List.range 19).map (fun j => (3 * j, 3 * j + 1, 3 * j + 2))

set_option maxRecDepth 100000 in
/-- **C2.** Every mesh emitted by `finalize_triangle_list` keeps its
material; every strip-group holds at most 65536 local vertices; every
strip's recorded `bone_table_bone`s are pairwise distinct and at most
53 (so the distinct count is ≤ 53) — under the remap-stage guarantee
that every vertex carries at most three links.  A breach starts a
fresh strip, strip-group and mesh for the same material: on the
example mesh whose links introduce a 54th distinct processed bone, two
meshes result, and the 54th bone (table bone 53) is the first entry of
the second strip's hardware-bone list. -/
theorem C2_strip_caps (mi : ℤ) (triangles : List (ℕ × ℕ × ℕ))
    (verts : ℕ → FTriangleVertex) (tangents : ℕ → Vec4)
    (vertex_count triangle_count : ℕ)
    (hlinks : ∀ i, (verts i).links.length ≤ 3) :
    (∀ m ∈ (finalize_triangle_list mi triangles verts tangents
        vertex_count triangle_count).1,
      m.material = mi ∧
      ∀ sg ∈ m.strip_groups, sg.vertices.length ≤ 65536 ∧
        ∀ s ∈ sg.strips,
          (s.hardware_bones.map (fun x => x.bone_table_bone)).Nodup ∧
          s.hardware_bones.length ≤ 53) ∧
    (finalize_triangle_list 0 C2exTriangles C2exVerts (fun _ => Vec4.zero)
        0 0).1.map (fun m => m.strip_groups.map (fun sg => sg.strips.map
          (fun s => s.hardware_bones.map (fun x => x.bone_table_bone)))) =
      [[[(List.range 53).map (fun n : ℕ => (n : ℤ))]], [[[(53 : ℤ), 0]]]] := by
  constructor
  · have h0 : finInv mi
        ({ processed_meshes := [], mesh := ⟨mi, [], []⟩,
           strip_group := StripGroup.default, strip := Strip.default,
           mapped_indices := [], hardware_bones := [],
           vertex_count := vertex_count,
           triangle_count := triangle_count } : FinState) :=
      ⟨fun m hm => absurd hm (List.not_mem_nil m), rfl, rfl, rfl, rfl, rfl,
        List.nodup_nil, Nat.zero_le 53, Nat.zero_le 65536⟩
    have hF := foldl_process_triangle_inv mi verts tangents hlinks
      triangles _ h0
    have hD := flushState_inv mi _ hF
    intro m hm
    obtain ⟨hmat', hsg'⟩ := hD.1 m hm
    exact ⟨hmat', fun sg hsg => ⟨(hsg' sg hsg).1, fun s hs =>
      ⟨((hsg' sg hsg).2 s hs).1, ((hsg' sg hsg).2 s hs).2⟩⟩⟩
  · decide

theorem C2_strip_caps_witness :
    (∀ i, (C2exVerts i).links.length ≤ 3) ∧
    ∀ m ∈ (finalize_triangle_list 0 C2exTriangles C2exVerts
        (fun _ => Vec4.zero) 0 0).1, m.material = 0 :=
  ⟨fun i => (by decide : (1 : ℕ) ≤ 3), fun m hm =>
    ((C2_strip_caps 0 C2exTriangles C2exVerts (fun _ => Vec4.zero) 0 0
      (fun i => (by decide : (1 : ℕ) ≤ 3))).1 m hm).1⟩

end SourceWrench
